import Mathlib

/-!
Verification of the weighted, frequency-ordered FP-tree miner of the GORi
repository (`_scripts/fptree.py`, with the weighted variant
`_scripts/wofptree.py`).

The Python code is shallowly embedded below.  Python floats are modelled as
exact rationals (`Rat`), Python dicts as insertion-ordered association lists,
pandas data frames as lists of rows, and the treelib `Tree` as an arena of
nodes indexed by their node id (`nid`), which is exactly how the code uses it
(`tree[nid]`, `tree.is_branch(nid)`, monotonically increasing ids).  A Python
`KeyError` / `IndexError` is modelled with `Except String`, the error value
being the item name the failing lookup was given.
-/

attribute [local semireducible] Rat.add Rat.mul Rat.inv Rat.sub

deriving instance DecidableEq for Except

namespace GORi

/-! ### String comparison

Python compares strings lexicographically by code point; `String ≤` in Lean
does not kernel-reduce, so we use our own lexicographic comparison on the
underlying character lists. -/

def charsLe : List Char → List Char → Bool
  | [], _ => true
  | _ :: _, [] => false
  | a :: as, b :: bs =>
    if a.toNat < b.toNat then true
    else if b.toNat < a.toNat then false
    else charsLe as bs

def strLe (a b : String) : Bool := charsLe a.data b.data

/-! ### Sorting

Python's `sorted` / pandas `sort_values`: a comparison sort.  We use a
structurally recursive insertion sort.  Stability is irrelevant at every call
site of the source: the sort keys used there are injective on the distinct
elements being sorted, or ties are between fully identical rows. -/

def insortBy (le : α → α → Bool) (x : α) : List α → List α
  | [] => [x]
  | y :: ys => if le x y then x :: y :: ys else y :: insortBy le x ys

def sortBy (le : α → α → Bool) (l : List α) : List α := l.foldr (insortBy le) []

theorem insortBy_perm (le : α → α → Bool) (x : α) (l : List α) :
    (insortBy le x l).Perm (x :: l) := by
  induction l with
  | nil => simp [insortBy]
  | cons y ys ih =>
    simp only [insortBy]
    by_cases h : le x y = true
    · simp [h]
    · simp only [h, if_false]
      exact (List.Perm.cons y ih).trans (List.Perm.swap x y ys)

theorem sortBy_perm (le : α → α → Bool) (l : List α) : (sortBy le l).Perm l := by
  induction l with
  | nil => simp [sortBy]
  | cons x xs ih =>
    exact (insortBy_perm le x (sortBy le xs)).trans (List.Perm.cons x ih)

theorem mem_sortBy (le : α → α → Bool) (l : List α) (x : α) :
    x ∈ sortBy le l ↔ x ∈ l := (sortBy_perm le l).mem_iff

theorem mem_insortBy (le : α → α → Bool) (x y : α) (l : List α) :
    y ∈ insortBy le x l ↔ y = x ∨ y ∈ l := by
  rw [(insortBy_perm le x l).mem_iff, List.mem_cons]

theorem pairwise_insortBy (le : α → α → Bool)
    (htrans : ∀ a b c, le a b = true → le b c = true → le a c = true)
    (htot : ∀ a b, le a b = true ∨ le b a = true)
    (x : α) (l : List α) (hl : l.Pairwise (fun a b => le a b = true)) :
    (insortBy le x l).Pairwise (fun a b => le a b = true) := by
  induction l with
  | nil => simp [insortBy]
  | cons y ys ih =>
    rw [List.pairwise_cons] at hl
    obtain ⟨hy, hys⟩ := hl
    simp only [insortBy]
    by_cases h : le x y = true
    · simp only [h, if_true]
      refine List.Pairwise.cons ?_ (List.Pairwise.cons hy hys)
      intro z hz
      rcases List.mem_cons.mp hz with hzy | hz
      · rw [hzy]; exact h
      · exact htrans _ _ _ h (hy z hz)
    · simp only [h, if_false]
      refine List.Pairwise.cons ?_ (ih hys)
      intro z hz
      rcases (mem_insortBy le x z ys).mp hz with hzx | hz
      · rw [hzx]
        rcases htot x y with h' | h'
        · exact absurd h' h
        · exact h'
      · exact hy z hz

theorem pairwise_sortBy (le : α → α → Bool)
    (htrans : ∀ a b c, le a b = true → le b c = true → le a c = true)
    (htot : ∀ a b, le a b = true ∨ le b a = true)
    (l : List α) : (sortBy le l).Pairwise (fun a b => le a b = true) := by
  induction l with
  | nil => simp [sortBy]
  | cons x xs ih => exact pairwise_insortBy le htrans htot x (sortBy le xs) ih

/-! ### Association-list helpers (Python dict) -/

def alookup (m : List (String × α)) (k : String) : Option α :=
  (m.find? fun p => p.1 = k).map Prod.snd

/-! ### Data model -/

/-- One row of the `items_metrics` data frame built by `get_items_metrics`. -/
structure ItemRow where
  item : String
  freq : Rat
  weight : Rat
  label : String
deriving DecidableEq, Repr, Inhabited

/-- One node of the treelib tree: its `tag`, its parent nid (none for the
root) and the `NodeData` payload `freq`/`weight`.  The root's data in the
Python code is the sentinel pair of empty strings, modelled as `0`/`0`; it is
never read downstream. -/
structure FNode where
  tag : String
  parent : Option Nat
  freq : Rat
  weight : Rat
deriving DecidableEq, Repr, Inhabited

/-- The pair returned by `construct_fptree`: the node arena (index = nid,
nid 0 = root) together with the `item_nodes` dict mapping an item to the list
of nids carrying it. -/
structure FPState where
  nodes : List FNode
  item_nodes : List (String × List Nat)
deriving DecidableEq, Repr

/-- An association rule as produced by `get_rule`. -/
structure Rule where
  body : String
  head : String
  conf : Rat
  lift : Rat
  cover : Rat
deriving DecidableEq, Repr

/-! ### fptree.get_items_metrics -/

def bumpFreq (N : Nat) (rows : List ItemRow) (item : String) : List ItemRow :=
  rows.map fun r => if r.item = item then { r with freq := r.freq + 1 / (N : Rat) } else r

/-- One loop iteration of `get_items_metrics`: for the next occurrence of
`item` in the scan, bump its frequency by `1/total_trans` and (eagerly, as
Python evaluates `d.get(k, item_weights[k])`) look up its weight and label,
raising `KeyError(item)` when either is missing. -/
def addItemOcc (N : Nat) (item_weights : List (String × Rat))
    (item_labels : List (String × String))
    (acc : Except String (List ItemRow)) (item : String) : Except String (List ItemRow) :=
  match acc with
  | .error e => .error e
  | .ok rows =>
    match alookup item_weights item with
    | none => .error item
    | some w =>
      match alookup item_labels item with
      | none => .error item
      | some lab =>
        if rows.any fun r => r.item = item then .ok (bumpFreq N rows item)
        else .ok (rows ++ [{ item := item, freq := 1 / (N : Rat), weight := w, label := lab }])

def get_items_metrics (trans_db : List (List String)) (item_weights : List (String × Rat))
    (item_labels : List (String × String)) : Except String (List ItemRow) :=
  trans_db.foldl
    (fun acc t => t.foldl (addItemOcc trans_db.length item_weights item_labels) acc)
    (.ok [])

/-! ### fptree.filter_frequency_and_weight -/

/-- The `sort_values(by=['freq', 'item'], ascending=[False, True])` key:
frequency descending, then item id ascending. -/
def rowLe (a b : ItemRow) : Bool :=
  if b.freq < a.freq then true
  else if a.freq < b.freq then false
  else strLe a.item b.item

def filter_frequency_and_weight (items_metrics : List ItemRow)
    (min_item_freq min_item_weight : Rat) : List ItemRow :=
  let m1 :=
    if min_item_freq < 0 then items_metrics.filter fun r => r.freq ≤ -min_item_freq
    else items_metrics.filter fun r => min_item_freq ≤ r.freq
  let m2 :=
    if min_item_weight < 0 then m1.filter fun r => r.weight ≤ -min_item_weight
    else m1.filter fun r => min_item_weight ≤ r.weight
  sortBy rowLe m2

/-! ### fptree.order_transaction -/

def order_transaction (ti : List String) (items_metrics : List ItemRow) : List String :=
  let order := items_metrics.map ItemRow.item
  let freq_ti := ti.filter fun x => x ∈ order
  sortBy (fun a b => order.indexOf a ≤ order.indexOf b) freq_ti

/-! ### fptree.construct_fptree -/

def rootNode : FNode := { tag := "", parent := none, freq := 0, weight := 0 }

def initState : FPState := { nodes := [rootNode], item_nodes := [] }

/-- The `tree.is_branch(parent_nid)` call: nids of the children of a node. -/
def childrenNids (nodes : List FNode) (pnid : Nat) : List Nat :=
  (List.range nodes.length).filter fun i => (nodes[i]?).any fun n => n.parent = some pnid

def listMinD : List Nat → Nat → Nat
  | [], acc => acc
  | x :: xs, acc => listMinD xs (min acc x)

/-- Python's `min` over a nonempty collection (`0` on the empty one, which the
code never produces). -/
def minNid : List Nat → Nat
  | [] => 0
  | x :: xs => listMinD xs x

def updateFreq : List FNode → Nat → Rat → List FNode
  | [], _, _ => []
  | n :: rest, 0, d => { n with freq := n.freq + d } :: rest
  | n :: rest, Nat.succ i, d => n :: updateFreq rest i d

/-- The `item_nodes[item] = item_nodes.get(item, []) + [new_nid]` update. -/
def appendNid (m : List (String × List Nat)) (item : String) (nid : Nat) :
    List (String × List Nat) :=
  if m.any fun p => p.1 = item then
    m.map fun p => if p.1 = item then (p.1, p.2 ++ [nid]) else p
  else m ++ [(item, [nid])]

/-- The `else` branch of the insertion loop: create a new node tagged `item`
below `parent_nid` with support `1/N` and the item's weight taken from the
metrics table (`.values[0]` on an empty selection is an `IndexError`,
modelled as `.error item`). -/
def createNodeE (N : Nat) (items_metrics : List ItemRow) (st : FPState)
    (parent_nid : Nat) (item : String) : Except String (FPState × Nat) :=
  match items_metrics.find? fun r => r.item = item with
  | none => .error item
  | some row =>
    let nid := st.nodes.length
    .ok ({ nodes := st.nodes ++
             [{ tag := item, parent := some parent_nid, freq := 1 / (N : Rat),
                weight := row.weight }],
           item_nodes := appendNid st.item_nodes item nid }, nid)

/-- One iteration of the inner loop of `construct_fptree`: from the current
node `parent_nid`, either navigate to the (lowest-nid) child already carrying
`item` and add `1/N` to its support, or create a fresh child. -/
def insertItemE (N : Nat) (items_metrics : List ItemRow)
    (acc : Except String (FPState × Nat)) (item : String) : Except String (FPState × Nat) :=
  match acc with
  | .error e => .error e
  | .ok (st, parent_nid) =>
    let children_nids := childrenNids st.nodes parent_nid
    match alookup st.item_nodes item with
    | some nids =>
      if children_nids.any fun nid => nid ∈ nids then
        let target := minNid (nids.filter fun nid => nid ∈ children_nids)
        .ok ({ st with nodes := updateFreq st.nodes target (1 / (N : Rat)) }, target)
      else createNodeE N items_metrics st parent_nid item
    | none => createNodeE N items_metrics st parent_nid item

/-- One iteration of the outer loop: order the transaction and insert its
items starting from the root (nid 0). -/
def insertTransactionE (N : Nat) (items_metrics : List ItemRow)
    (acc : Except String FPState) (ti : List String) : Except String FPState :=
  match acc with
  | .error e => .error e
  | .ok st =>
    match (order_transaction ti items_metrics).foldl (insertItemE N items_metrics)
        (.ok (st, 0)) with
    | .error e => .error e
    | .ok (st2, _) => .ok st2

def construct_fptree (trans_db : List (List String)) (items_metrics : List ItemRow) :
    Except String FPState :=
  trans_db.foldl (insertTransactionE trans_db.length items_metrics) (.ok initState)

/-! ### Paths in the tree

The sequence of tags from the root down to a node, recovered through the
parent pointers (fuel-driven; fuel `nid` suffices since a parent always has a
smaller nid than its child). -/

def pathAux (nodes : List FNode) : Nat → Nat → List String
  | 0, _ => []
  | fuel + 1, nid =>
    match nodes[nid]? with
    | none => []
    | some n =>
      match n.parent with
      | none => []
      | some p => pathAux nodes fuel p ++ [n.tag]

def pathTo (nodes : List FNode) (nid : Nat) : List String := pathAux nodes nid nid

/-! ### fptree.get_branch -/

/-- Python dict assignment `d[k] = v`. -/
def dictSet (d : List (String × Rat)) (k : String) (v : Rat) : List (String × Rat) :=
  if d.any fun p => p.1 = k then d.map fun p => if p.1 = k then (p.1, v) else p
  else d ++ [(k, v)]

/-- The `while parent_node.predecessor(...) != None` walk of `get_branch`:
visit the ancestors of the leaf strictly below the root, recording
`tag ↦ pattern_frequency` for every ancestor whose first two characters
differ from the leaf tag's. -/
def climbBranch (nodes : List FNode) (leafTag : String) (pf : Rat) :
    Nat → Nat → List (String × Rat) → List (String × Rat)
  | 0, _, branch => branch
  | fuel + 1, pnid, branch =>
    match nodes[pnid]? with
    | none => branch
    | some pn =>
      match pn.parent with
      | none => branch
      | some gp =>
        let branch2 :=
          if leafTag.take 2 ≠ pn.tag.take 2 then dictSet branch pn.tag pf else branch
        climbBranch nodes leafTag pf fuel gp branch2

def get_branch (fptree : FPState) (nid : Nat) : List (String × Rat) :=
  match fptree.nodes[nid]? with
  | none => []
  | some leaf =>
    match leaf.parent with
    | none => []
    | some pnid => climbBranch fptree.nodes leaf.tag leaf.freq fptree.nodes.length pnid []

/-! ### fptree.get_condition_tree -/

/-- The `Counter` sum `cond_tree += Counter(branch)`.  All frequencies the
code feeds it are positive, so the `Counter` stripping of non-positive
entries never fires. -/
def counterAdd (c b : List (String × Rat)) : List (String × Rat) :=
  b.foldl
    (fun acc kv =>
      if acc.any fun p => p.1 = kv.1 then
        acc.map fun p => if p.1 = kv.1 then (p.1, p.2 + kv.2) else p
      else acc ++ [kv])
    c

/-- `get_condition_tree(item, fptree, item_nodes)`; the `item_nodes` dict is
the second component of `FPState`.  Python raises `KeyError` when `item` has
no node at all; the code only calls it on items of the metrics table, which
all occur in the tree. -/
def get_condition_tree (item : String) (fptree : FPState) : List (String × Rat) :=
  ((alookup fptree.item_nodes item).getD []).foldl
    (fun cond nid => counterAdd cond (get_branch fptree nid)) []

/-! ### fptree.get_rule and fptree.get_rules_metrics -/

def get_rule (pattern_freq : Rat) (body_row head_row : ItemRow) : Rule :=
  let confidence := pattern_freq / body_row.freq
  let lift := confidence / head_row.freq
  { body := body_row.item, head := head_row.item, conf := confidence, lift := lift,
    cover := body_row.freq }

/-- The `items_metrics[items_metrics['item'] == item]` single-row selection
(first matching row; Python raises `IndexError` when there is none, which the
pipeline never triggers). -/
def findRow (items_metrics : List ItemRow) (item : String) : ItemRow :=
  (items_metrics.find? fun r => r.item = item).getD default

def get_rules_metrics (fptree : FPState) (items_metrics : List ItemRow) : List Rule :=
  ((items_metrics.map ItemRow.item).drop 1).foldl
    (fun acc item =>
      let cond_tree := get_condition_tree item fptree
      cond_tree.foldl
        (fun acc2 pkv =>
          acc2 ++
            [get_rule pkv.2 (findRow items_metrics pkv.1) (findRow items_metrics item),
             get_rule pkv.2 (findRow items_metrics item) (findRow items_metrics pkv.1)])
        acc)
    []

/-! ### fptree.filter_confidence_and_lift -/

/-- The `sort_values(by=['cover', 'body'], ascending=[True, True])` key. -/
def ruleLe (a b : Rule) : Bool :=
  if a.cover < b.cover then true
  else if b.cover < a.cover then false
  else strLe a.body b.body

def filter_confidence_and_lift (rules_metrics : List Rule)
    (min_rule_conf min_rule_lift : Rat) : List Rule :=
  let r1 :=
    if min_rule_conf < 0 then rules_metrics.filter fun r => r.conf ≤ -min_rule_conf
    else rules_metrics.filter fun r => min_rule_conf ≤ r.conf
  let r2 :=
    if min_rule_lift < 0 then r1.filter fun r => r.lift ≤ -min_rule_lift
    else r1.filter fun r => min_rule_lift ≤ r.lift
  sortBy ruleLe r2

/-! ### The wofptree.py variant (only the parts the claims mention) -/

namespace wof

/-- The `sort_values(by=['freq', 'item'], ascending=[False, True])` key of
`wofptree.filter_frequency`. -/
def pairLe (a b : String × Rat) : Bool :=
  if b.2 < a.2 then true
  else if a.2 < b.2 then false
  else strLe a.1 b.1

/-- `wofptree.filter_frequency`: note the strict `>` comparison and the
absence of any negative-threshold branch. -/
def filter_frequency (freq_items : List (String × Rat)) (min_item_freq : Rat) :
    List (String × Rat) :=
  sortBy pairLe (freq_items.filter fun p => min_item_freq < p.2)

/-- The ancestor walk of `wofptree.get_branch`: same loop as the plain
variant, but the recording guard is `parent.data.weight >= min_item_weight`
and there is no two-character-prefix comparison. -/
def climbBranch (nodes : List FNode) (min_item_weight : Rat) (pf : Rat) :
    Nat → Nat → List (String × Rat) → List (String × Rat)
  | 0, _, branch => branch
  | fuel + 1, pnid, branch =>
    match nodes[pnid]? with
    | none => branch
    | some pn =>
      match pn.parent with
      | none => branch
      | some gp =>
        let branch2 :=
          if min_item_weight ≤ pn.weight then dictSet branch pn.tag pf else branch
        climbBranch nodes min_item_weight pf fuel gp branch2

def get_branch (fptree : FPState) (nid : Nat) (min_item_weight : Rat) :
    List (String × Rat) :=
  match fptree.nodes[nid]? with
  | none => []
  | some leaf =>
    match leaf.parent with
    | none => []
    | some pnid =>
      climbBranch fptree.nodes min_item_weight leaf.freq fptree.nodes.length pnid []

end wof

/-! ### Derived observations on the tree (used to state properties) -/

/-- The nodes visited by the `while parent_node.predecessor(...) != None`
walk of `get_branch`, starting at node `pnid`: the chain of ancestors
strictly below the root. -/
def ancNodes (nodes : List FNode) : Nat → Nat → List FNode
  | 0, _ => []
  | fuel + 1, pnid =>
    match nodes[pnid]? with
    | none => []
    | some pn =>
      match pn.parent with
      | none => []
      | some gp => pn :: ancNodes nodes fuel gp

/-- Sum of the supports of the children of node `i` that carry `tag`. -/
def taggedChildFreqSum (st : FPState) (i : Nat) (tag : String) : Rat :=
  ((childrenNids st.nodes i).map fun c =>
    match st.nodes[c]? with
    | some n => if n.tag = tag then n.freq else 0
    | none => 0).sum

/-- Sum of the supports over all nodes registered for `item` in the
`item_nodes` index. -/
def itemNodeFreqSum (st : FPState) (item : String) : Rat :=
  (((alookup st.item_nodes item).getD []).map fun nid =>
    match st.nodes[nid]? with
    | some n => n.freq
    | none => 0).sum

/-- Value lookup in an association list, with the `Counter` convention that a
missing key counts 0. -/
def rlookup (d : List (String × Rat)) (k : String) : Rat :=
  (((d.find? fun p => p.1 = k).map Prod.snd).getD 0)

/-- The construction state of `construct_fptree` observed mid-run: after the
first `k` transactions have been inserted and the first `j` items of the
`(k+1)`-st ordered transaction have been processed (the `Nat` component is
the current `parent_nid`). -/
def fptreeAt (trans_db : List (List String)) (metrics : List ItemRow) (k j : Nat) :
    Except String (FPState × Nat) :=
  match (trans_db.take k).foldl (insertTransactionE trans_db.length metrics)
      (.ok initState) with
  | .error e => .error e
  | .ok st =>
    match trans_db[k]? with
    | none => .ok (st, 0)
    | some t =>
      ((order_transaction t metrics).take j).foldl
        (insertItemE trans_db.length metrics) (.ok (st, 0))

/-- The running invariant of `construct_fptree`, stated for the state reached
after inserting the transactions of `processed` and then the prefix `udone`
of the ordered form of one further transaction (`pn` is the current
`parent_nid`).  `N` is the total transaction count used for the `1/N`
increments. -/
structure GoodMid (N : Nat) (metrics : List ItemRow) (st : FPState) (pn : Nat)
    (processed : List (List String)) (udone : List String) : Prop where
  root_node : st.nodes[0]? = some rootNode
  parent_lt : ∀ i n, st.nodes[i]? = some n → i ≠ 0 → ∃ p, n.parent = some p ∧ p < i
  inodes : ∀ (item : String) (nid : Nat),
    nid ∈ (alookup st.item_nodes item).getD [] ↔
      ∃ n, st.nodes[nid]? = some n ∧ n.tag = item ∧ nid ≠ 0
  nodup_nids : ∀ item : String, ((alookup st.item_nodes item).getD []).Nodup
  path_inj : ∀ i j, i < st.nodes.length → j < st.nodes.length →
    pathTo st.nodes i = pathTo st.nodes j → i = j
  pn_lt : pn < st.nodes.length
  pn_path : pathTo st.nodes pn = udone
  freq_eq : ∀ i n, st.nodes[i]? = some n → i ≠ 0 →
    n.freq = ((processed.countP fun t =>
        (pathTo st.nodes i).isPrefixOf (order_transaction t metrics) : Nat) : Rat) /
        (N : Rat) +
      (if pathTo st.nodes i ≠ [] ∧ pathTo st.nodes i <+: udone then 1 / (N : Rat) else 0)
  covered : ∀ t ∈ processed, ∀ j : Nat, ∃ i, i < st.nodes.length ∧
    pathTo st.nodes i = (order_transaction t metrics).take j
  covered_done : ∀ j : Nat, ∃ i, i < st.nodes.length ∧ pathTo st.nodes i = udone.take j
  path_sorted : ∀ i, i < st.nodes.length → (pathTo st.nodes i).Pairwise
    (fun a b => (metrics.map ItemRow.item).indexOf a ≤ (metrics.map ItemRow.item).indexOf b)
  sum_le : ∀ item : String, itemNodeFreqSum st item ≤
    ((processed.flatten.count item : Nat) : Rat) / (N : Rat) +
      ((udone.count item : Nat) : Rat) / (N : Rat)

/-! ### The reference fixture of the module docstrings -/

def fixtureDb : List (List String) :=
  [["A", "C", "B", "D"], ["B", "E", "D"], ["E", "B", "A"], ["Y", "C", "D"], ["D", "A"]]

def fixtureWeights : List (String × Rat) :=
  [("A", 1/2), ("B", 3/10), ("C", 9/10), ("D", 7/10), ("E", 1/10), ("Y", 1)]

def fixtureLabels : List (String × String) :=
  [("A", "Alpha"), ("B", "Beta"), ("C", "Gamma"), ("D", "Delta"), ("E", "Episode"),
   ("Y", "Yahtzee")]

def fixtureMetrics : List ItemRow :=
  match get_items_metrics fixtureDb fixtureWeights fixtureLabels with
  | .ok m => filter_frequency_and_weight m (1/4) (1/2)
  | .error _ => []

def fixtureTree : FPState :=
  match construct_fptree fixtureDb fixtureMetrics with
  | .ok st => st
  | .error _ => initState

/-- A mid-construction state on the fixture: after 3 full transactions and
one item of the fourth. -/
def fixtureMid : FPState × Nat :=
  match fptreeAt fixtureDb fixtureMetrics 3 1 with
  | .ok p => p
  | .error _ => (initState, 0)

/-! ### Characterization of get_items_metrics -/

theorem foldl_flatten_eq (f : β → α → β) (db : List (List α)) (b : β) :
    db.foldl (fun acc t => t.foldl f acc) b = db.flatten.foldl f b := by
  induction db generalizing b with
  | nil => rfl
  | cons t ts ih => simp [List.foldl_append, ih]

theorem addItemOcc_fold_error_absorb (N : Nat) (W : List (String × Rat))
    (L : List (String × String)) (l : List String) (e : String) :
    l.foldl (addItemOcc N W L) (.error e) = .error e := by
  induction l with
  | nil => rfl
  | cons x xs ih => simpa [addItemOcc] using ih

theorem bumpFreq_map_item (N : Nat) (rows : List ItemRow) (item : String) :
    (bumpFreq N rows item).map ItemRow.item = rows.map ItemRow.item := by
  induction rows with
  | nil => rfl
  | cons r rs ih =>
    by_cases h : r.item = item <;> simp [bumpFreq, h] at ih ⊢ <;> exact ih

/-- The loop invariant of `get_items_metrics`: after scanning the flattened
occurrence list `seen`, the accumulated data frame holds one row per distinct
item seen so far, whose `freq` is its multiplicity in `seen` divided by the
transaction count; the stored weight and label are the mapped ones. -/
theorem addItemOcc_fold_spec (N : Nat) (W : List (String × Rat)) (L : List (String × String)) :
    ∀ (l seen : List String) (rows0 rows : List ItemRow),
      (rows0.map ItemRow.item).Nodup →
      (∀ r ∈ rows0, r.freq = ((seen.count r.item : Nat) : Rat) / (N : Rat) ∧
        alookup W r.item = some r.weight ∧ alookup L r.item = some r.label) →
      (∀ it : String, it ∈ rows0.map ItemRow.item ↔ it ∈ seen) →
      l.foldl (addItemOcc N W L) (.ok rows0) = .ok rows →
      (rows.map ItemRow.item).Nodup ∧
      (∀ r ∈ rows, r.freq = (((seen ++ l).count r.item : Nat) : Rat) / (N : Rat) ∧
        alookup W r.item = some r.weight ∧ alookup L r.item = some r.label) ∧
      (∀ it : String, it ∈ rows.map ItemRow.item ↔ it ∈ seen ++ l) := by
  intro l
  induction l with
  | nil =>
    intro seen rows0 rows h1 h2 h3 hfold
    cases hfold
    rw [List.append_nil]
    exact ⟨h1, h2, h3⟩
  | cons x xs ih =>
    intro seen rows0 rows h1 h2 h3 hfold
    rw [List.foldl_cons] at hfold
    have hseen : seen ++ x :: xs = (seen ++ [x]) ++ xs := by simp
    rw [hseen]
    cases hW : alookup W x with
    | none =>
      rw [show addItemOcc N W L (.ok rows0) x = .error x by
        simp [addItemOcc, hW]] at hfold
      rw [addItemOcc_fold_error_absorb] at hfold
      cases hfold
    | some w =>
      cases hL : alookup L x with
      | none =>
        rw [show addItemOcc N W L (.ok rows0) x = .error x by
          simp [addItemOcc, hW, hL]] at hfold
        rw [addItemOcc_fold_error_absorb] at hfold
        cases hfold
      | some lab =>
        by_cases hx : rows0.any (fun r => r.item = x) = true
        · rw [show addItemOcc N W L (.ok rows0) x = .ok (bumpFreq N rows0 x) by
            simp [addItemOcc, hW, hL, hx]] at hfold
          have hxmem : x ∈ rows0.map ItemRow.item := by
            rcases List.any_eq_true.mp hx with ⟨r, hr, hri⟩
            exact List.mem_map.mpr ⟨r, hr, of_decide_eq_true hri⟩
          refine ih (seen ++ [x]) (bumpFreq N rows0 x) rows ?_ ?_ ?_ hfold
          · rw [bumpFreq_map_item]; exact h1
          · intro r hr
            rcases List.mem_map.mp hr with ⟨r0, hr0, hr0e⟩
            rcases h2 r0 hr0 with ⟨hf, hw, hl⟩
            by_cases hri : r0.item = x
            · have hre : r = { r0 with freq := r0.freq + 1 / (N : Rat) } := by
                rw [← hr0e]; simp [hri]
              have hcnt : List.count r.item (seen ++ [x]) = List.count r0.item seen + 1 := by
                rw [hre]
                show List.count r0.item (seen ++ [x]) = List.count r0.item seen + 1
                rw [List.count_append, hri]
                simp
              refine ⟨?_, by rw [hre]; exact hw, by rw [hre]; exact hl⟩
              rw [hcnt, hre]
              show r0.freq + 1 / (N : Rat) = ((List.count r0.item seen + 1 : Nat) : Rat) / N
              rw [hf]
              push_cast
              ring
            · have hre : r = r0 := by rw [← hr0e]; simp [hri]
              have hcnt : List.count r.item (seen ++ [x]) = List.count r0.item seen := by
                rw [hre, List.count_append]
                have : List.count r0.item [x] = 0 :=
                  List.count_eq_zero.mpr (by simp [hri])
                rw [this, Nat.add_zero]
              refine ⟨?_, by rw [hre]; exact hw, by rw [hre]; exact hl⟩
              rw [hcnt, hre, hf]
          · intro it
            rw [bumpFreq_map_item, List.mem_append, List.mem_singleton]
            constructor
            · intro h; exact Or.inl ((h3 it).mp h)
            · rintro (h | rfl)
              · exact (h3 it).mpr h
              · exact hxmem
        · rw [show addItemOcc N W L (.ok rows0) x =
              .ok (rows0 ++ [{ item := x, freq := 1 / (N : Rat), weight := w, label := lab }]) by
            simp [addItemOcc, hW, hL, hx]] at hfold
          have hxnot : x ∉ rows0.map ItemRow.item := by
            intro hmem
            rcases List.mem_map.mp hmem with ⟨r, hr, hri⟩
            exact hx (List.any_eq_true.mpr ⟨r, hr, decide_eq_true hri⟩)
          have hxseen : x ∉ seen := fun h => hxnot ((h3 x).mpr h)
          have hmapnew : (rows0 ++
              [({ item := x, freq := 1 / (N : Rat), weight := w, label := lab } : ItemRow)]).map
                ItemRow.item = rows0.map ItemRow.item ++ [x] := by
            rw [List.map_append]
            rfl
          refine ih (seen ++ [x]) _ rows ?_ ?_ ?_ hfold
          · rw [hmapnew, List.nodup_append]
            exact ⟨h1, List.nodup_singleton x, by simpa using hxnot⟩
          · intro r hr
            rcases List.mem_append.mp hr with hr0 | hrnew
            · rcases h2 r hr0 with ⟨hf, hw, hl⟩
              have hri : r.item ≠ x := by
                intro h
                exact hxnot (h ▸ List.mem_map.mpr ⟨r, hr0, rfl⟩)
              have hcnt : List.count r.item (seen ++ [x]) = List.count r.item seen := by
                rw [List.count_append]
                have : List.count r.item [x] = 0 :=
                  List.count_eq_zero.mpr (by simp [hri])
                rw [this, Nat.add_zero]
              exact ⟨by rw [hcnt, hf], hw, hl⟩
            · rw [List.mem_singleton] at hrnew
              refine ⟨?_, by rw [hrnew]; exact hW, by rw [hrnew]; exact hL⟩
              rw [hrnew]
              show (1 : Rat) / (N : Rat) = ((List.count x (seen ++ [x]) : Nat) : Rat) / N
              rw [List.count_append, List.count_eq_zero_of_not_mem hxseen]
              simp
          · intro it
            rw [hmapnew, List.mem_append, List.mem_singleton, List.mem_append,
              List.mem_singleton, h3 it]

/-- `get_items_metrics`, when it succeeds, returns one row per distinct item
occurring in the database, in which `freq` is the item's total number of
occurrences (duplicates inside one transaction counted with multiplicity,
exactly as the `for item in t` loop does) divided by the number of
transactions. -/
theorem get_items_metrics_spec (db : List (List String)) (W : List (String × Rat))
    (L : List (String × String)) (rows : List ItemRow)
    (h : get_items_metrics db W L = .ok rows) :
    (rows.map ItemRow.item).Nodup ∧
    (∀ r ∈ rows, r.freq = ((db.flatten.count r.item : Nat) : Rat) / (db.length : Rat) ∧
      alookup W r.item = some r.weight ∧ alookup L r.item = some r.label) ∧
    (∀ it : String, it ∈ rows.map ItemRow.item ↔ it ∈ db.flatten) := by
  rw [get_items_metrics, foldl_flatten_eq] at h
  have := addItemOcc_fold_spec db.length W L db.flatten [] [] rows
    (by simp) (by simp) (by simp) h
  simpa using this

theorem addItemOcc_fold_error_spec (N : Nat) (W : List (String × Rat))
    (L : List (String × String)) :
    ∀ (l : List String) (rows0 : List ItemRow) (e : String),
      l.foldl (addItemOcc N W L) (.ok rows0) = .error e →
      e ∈ l ∧ (alookup W e = none ∨ alookup L e = none) := by
  intro l
  induction l with
  | nil => intro rows0 e h; cases h
  | cons x xs ih =>
    intro rows0 e h
    rw [List.foldl_cons] at h
    cases hW : alookup W x with
    | none =>
      rw [show addItemOcc N W L (.ok rows0) x = .error x by simp [addItemOcc, hW],
        addItemOcc_fold_error_absorb] at h
      cases h
      exact ⟨List.mem_cons_self x xs, Or.inl hW⟩
    | some w =>
      cases hL : alookup L x with
      | none =>
        rw [show addItemOcc N W L (.ok rows0) x = .error x by simp [addItemOcc, hW, hL],
          addItemOcc_fold_error_absorb] at h
        cases h
        exact ⟨List.mem_cons_self x xs, Or.inr hL⟩
      | some lab =>
        by_cases hx : rows0.any (fun r => r.item = x) = true
        · rw [show addItemOcc N W L (.ok rows0) x = .ok (bumpFreq N rows0 x) by
            simp [addItemOcc, hW, hL, hx]] at h
          rcases ih _ e h with ⟨h1, h2⟩
          exact ⟨List.mem_cons_of_mem x h1, h2⟩
        · rw [show addItemOcc N W L (.ok rows0) x =
              .ok (rows0 ++ [{ item := x, freq := 1 / (N : Rat), weight := w, label := lab }]) by
            simp [addItemOcc, hW, hL, hx]] at h
          rcases ih _ e h with ⟨h1, h2⟩
          exact ⟨List.mem_cons_of_mem x h1, h2⟩

theorem addItemOcc_fold_ok_spec (N : Nat) (W : List (String × Rat))
    (L : List (String × String)) :
    ∀ (l : List String) (rows0 : List ItemRow),
      (∀ x ∈ l, (alookup W x).isSome ∧ (alookup L x).isSome) →
      ∃ rows, l.foldl (addItemOcc N W L) (.ok rows0) = .ok rows := by
  intro l
  induction l with
  | nil => intro rows0 _; exact ⟨rows0, rfl⟩
  | cons x xs ih =>
    intro rows0 hall
    rcases hall x (List.mem_cons_self x xs) with ⟨hW, hL⟩
    rcases Option.isSome_iff_exists.mp hW with ⟨w, hw⟩
    rcases Option.isSome_iff_exists.mp hL with ⟨lab, hl⟩
    have hall2 : ∀ y ∈ xs, (alookup W y).isSome ∧ (alookup L y).isSome :=
      fun y hy => hall y (List.mem_cons_of_mem x hy)
    rw [List.foldl_cons]
    by_cases hx : rows0.any (fun r => r.item = x) = true
    · rw [show addItemOcc N W L (.ok rows0) x = .ok (bumpFreq N rows0 x) by
        simp [addItemOcc, hw, hl, hx]]
      exact ih _ hall2
    · rw [show addItemOcc N W L (.ok rows0) x =
          .ok (rows0 ++ [{ item := x, freq := 1 / (N : Rat), weight := w, label := lab }]) by
        simp [addItemOcc, hw, hl, hx]]
      exact ih _ hall2

theorem flatten_count_eq_countP (db : List (List String)) (item : String)
    (h : ∀ t ∈ db, t.Nodup) :
    db.flatten.count item = db.countP (fun t => item ∈ t) := by
  induction db with
  | nil => rfl
  | cons t ts ih =>
    rw [List.flatten_cons, List.count_append, List.countP_cons]
    have hts := ih (fun u hu => h u (List.mem_cons_of_mem t hu))
    by_cases hm : item ∈ t
    · rw [List.count_eq_one_of_mem (h t (List.mem_cons_self t ts)) hm, hts]
      simp [hm]
      omega
    · rw [List.count_eq_zero_of_not_mem hm, hts]
      simp [hm]

/-! ### Claim C2 -/

/-- C2: on the reference fixture (transactions, weights, min frequency 0.25,
min weight 0.5), the pipeline `get_items_metrics` →
`filter_frequency_and_weight` → `construct_fptree` → `get_rules_metrics`
produces a rule `D ⇒ A` with confidence 1/2 and a rule `C ⇒ D` with
confidence 1. -/
theorem C2_fixture_rules :
    (get_items_metrics fixtureDb fixtureWeights fixtureLabels).map
        (fun m => filter_frequency_and_weight m (1/4) (1/2)) = Except.ok fixtureMetrics ∧
    construct_fptree fixtureDb fixtureMetrics = Except.ok fixtureTree ∧
    (∃ r ∈ get_rules_metrics fixtureTree fixtureMetrics,
        r.body = "D" ∧ r.head = "A" ∧ r.conf = 1/2) ∧
    (∃ r ∈ get_rules_metrics fixtureTree fixtureMetrics,
        r.body = "C" ∧ r.head = "D" ∧ r.conf = 1) := by
  exact ⟨by decide, by decide, by decide, by decide⟩

/-! ### Claim C5 -/

/-- C5, counterexample: on the database `[["A", "A"]]` (one transaction with a
duplicated item) every item has a weight entry, yet `get_items_metrics`
assigns `A` the frequency 2, while the fraction of transactions containing
`A` is 1: duplicate occurrences inside one transaction do increase the
computed frequency, and it can exceed 1. -/
theorem C5_counterexample :
    get_items_metrics [["A", "A"]] [("A", 1)] [("A", "a")] =
      Except.ok [{ item := "A", freq := 2, weight := 1, label := "a" }] ∧
    (([["A", "A"]].countP (fun t => "A" ∈ t) : Nat) : Rat) /
      (([["A", "A"]] : List (List String)).length : Rat) = 1 ∧
    (2 : Rat) ≠ 1 := by
  exact ⟨by decide, by decide, by decide⟩

/-- C5, amended: `get_items_metrics` assigns each item the frequency
(total number of occurrences, duplicates within one transaction counted with
multiplicity) / (number of transactions), and this is positive; only when no
transaction contains duplicates does it equal (number of transactions
containing the item) / (number of transactions) and lie in (0, 1]. -/
theorem C5_amended (db : List (List String)) (W : List (String × Rat))
    (L : List (String × String)) (rows : List ItemRow) (r : ItemRow)
    (h : get_items_metrics db W L = .ok rows) (hr : r ∈ rows) :
    r.freq = ((db.flatten.count r.item : Nat) : Rat) / (db.length : Rat) ∧
    0 < r.freq ∧
    ((∀ t ∈ db, t.Nodup) →
      r.freq = ((db.countP (fun t => r.item ∈ t) : Nat) : Rat) / (db.length : Rat) ∧
      r.freq ≤ 1) := by
  rcases get_items_metrics_spec db W L rows h with ⟨_, hrows, hmem⟩
  rcases hrows r hr with ⟨hf, _, _⟩
  have hocc : r.item ∈ db.flatten :=
    (hmem r.item).mp (List.mem_map.mpr ⟨r, hr, rfl⟩)
  have hcpos : 0 < db.flatten.count r.item := List.count_pos_iff.mpr hocc
  have hN : 0 < db.length := by
    rcases List.mem_flatten.mp hocc with ⟨t, ht, _⟩
    exact List.length_pos.mpr (List.ne_nil_of_mem ht)
  have hNQ : (0 : Rat) < (db.length : Rat) := by exact_mod_cast hN
  refine ⟨hf, ?_, ?_⟩
  · rw [hf]
    apply div_pos _ hNQ
    exact_mod_cast hcpos
  · intro hnodup
    constructor
    · rw [hf, flatten_count_eq_countP db r.item hnodup]
    · rw [hf]
      rw [div_le_one hNQ]
      have hle : db.flatten.count r.item ≤ db.length := by
        rw [flatten_count_eq_countP db r.item hnodup]
        exact List.countP_le_length _
      exact_mod_cast hle

/-- Witness for `C5_amended` at the reference fixture, row `A`. -/
theorem C5_amended_witness :
    (({ item := "A", freq := 3/5, weight := 1/2, label := "Alpha" } : ItemRow)).freq =
      ((fixtureDb.countP (fun t => "A" ∈ t) : Nat) : Rat) / (fixtureDb.length : Rat) ∧
    (({ item := "A", freq := 3/5, weight := 1/2, label := "Alpha" } : ItemRow)).freq ≤ 1 := by
  have h := C5_amended fixtureDb fixtureWeights fixtureLabels
    [{ item := "A", freq := 3/5, weight := 1/2, label := "Alpha" },
     { item := "C", freq := 2/5, weight := 9/10, label := "Gamma" },
     { item := "B", freq := 3/5, weight := 3/10, label := "Beta" },
     { item := "D", freq := 4/5, weight := 7/10, label := "Delta" },
     { item := "E", freq := 2/5, weight := 1/10, label := "Episode" },
     { item := "Y", freq := 1/5, weight := 1, label := "Yahtzee" }]
    { item := "A", freq := 3/5, weight := 1/2, label := "Alpha" }
    (by decide) (by decide)
  exact h.2.2 (by decide)

/-! ### Claim C8 -/

/-- C8, counterexample: in `get_items_metrics [["A"]] [("A", 1)] []` every
occurring item has a weight entry, yet the operation fails (the label dict
lookup `item_labels[item]` raises), refuting "if every occurring item has a
weight entry, the operation succeeds". -/
theorem C8_counterexample :
    (∀ x ∈ [["A"]].flatten, alookup [("A", (1 : Rat))] x = some 1) ∧
    get_items_metrics [["A"]] [("A", 1)] [] = Except.error "A" := by
  exact ⟨by decide, by decide⟩

/-- C8, amended: provided every occurring item has a label entry (the
function also performs an `item_labels[item]` lookup the claim does not
mention), `get_items_metrics` fails with an error naming an occurring item
that lacks a weight entry whenever there is one, and succeeds whenever every
occurring item has a weight entry. -/
theorem C8_amended (db : List (List String)) (W : List (String × Rat))
    (L : List (String × String))
    (hlab : ∀ x ∈ db.flatten, (alookup L x).isSome) :
    ((∃ x ∈ db.flatten, alookup W x = none) →
      ∃ e, get_items_metrics db W L = .error e ∧ e ∈ db.flatten ∧ alookup W e = none) ∧
    ((∀ x ∈ db.flatten, (alookup W x).isSome) →
      ∃ rows, get_items_metrics db W L = .ok rows) := by
  constructor
  · rintro ⟨x, hx, hWx⟩
    cases hres : get_items_metrics db W L with
    | ok rows =>
      rcases get_items_metrics_spec db W L rows hres with ⟨_, hrows, hmem⟩
      rcases List.mem_map.mp ((hmem x).mpr hx) with ⟨r, hr, hri⟩
      rcases hrows r hr with ⟨_, hw, _⟩
      rw [hri] at hw
      rw [hw] at hWx
      cases hWx
    | error e =>
      rw [get_items_metrics, foldl_flatten_eq] at hres
      rcases addItemOcc_fold_error_spec db.length W L db.flatten [] e hres with ⟨he, hor⟩
      rcases hor with h | h
      · exact ⟨e, rfl, he, h⟩
      · rcases Option.isSome_iff_exists.mp (hlab e he) with ⟨v, hv⟩
        rw [h] at hv
        cases hv
  · intro hall
    rw [get_items_metrics, foldl_flatten_eq]
    exact addItemOcc_fold_ok_spec db.length W L db.flatten []
      (fun x hx => ⟨hall x hx, hlab x hx⟩)

/-- Witness for `C8_amended`: a missing weight for the occurring item `A`
produces an error naming an occurring weight-less item. -/
theorem C8_amended_witness :
    ∃ e, get_items_metrics [["A"]] [] [("A", "a")] = Except.error e ∧
      e ∈ [["A"]].flatten ∧ alookup ([] : List (String × Rat)) e = none := by
  exact (C8_amended [["A"]] [] [("A", "a")] (by decide)).1 (by decide)

/-! ### Claim C3 -/

/-- C3, counterexample: `wofptree.filter_frequency` drops a row whose value
equals the (non-negative) threshold exactly, contradicting the claimed
inclusive comparison. -/
theorem C3_counterexample :
    (0 : Rat) ≤ 1/4 ∧ ("A", (1 : Rat)/4) ∈ [("A", (1 : Rat)/4)] ∧
    wof.filter_frequency [("A", (1 : Rat)/4)] (1/4) = [] := by
  exact ⟨by norm_num, by decide, by decide⟩

/-- C3, amended: the inclusive, sign-flipping threshold semantics (keep
`value ≥ t` for `t ≥ 0`, keep `value ≤ -t` for `t < 0`) holds for the four
fptree filters (frequency and weight in `filter_frequency_and_weight`,
confidence and lift in `filter_confidence_and_lift`), but
`wofptree.filter_frequency` keeps exactly the rows whose value is strictly
greater than the threshold and has no negative-threshold convention. -/
theorem C3_amended :
    (∀ (rows : List ItemRow) (minF minW : Rat) (r : ItemRow),
      r ∈ filter_frequency_and_weight rows minF minW ↔
        r ∈ rows ∧ (if minF < 0 then r.freq ≤ -minF else minF ≤ r.freq) ∧
          (if minW < 0 then r.weight ≤ -minW else minW ≤ r.weight)) ∧
    (∀ (rules : List Rule) (minC minL : Rat) (q : Rule),
      q ∈ filter_confidence_and_lift rules minC minL ↔
        q ∈ rules ∧ (if minC < 0 then q.conf ≤ -minC else minC ≤ q.conf) ∧
          (if minL < 0 then q.lift ≤ -minL else minL ≤ q.lift)) ∧
    (∀ (freq_items : List (String × Rat)) (minf : Rat) (p : String × Rat),
      p ∈ wof.filter_frequency freq_items minf ↔ p ∈ freq_items ∧ minf < p.2) := by
  refine ⟨?_, ?_, ?_⟩
  · intro rows minF minW r
    by_cases h1 : minF < 0 <;> by_cases h2 : minW < 0 <;>
      simp [filter_frequency_and_weight, h1, h2, mem_sortBy, List.mem_filter,
        and_assoc] <;> tauto
  · intro rules minC minL q
    by_cases h1 : minC < 0 <;> by_cases h2 : minL < 0 <;>
      simp [filter_confidence_and_lift, h1, h2, mem_sortBy, List.mem_filter,
        and_assoc] <;> tauto
  · intro freq_items minf p
    simp [wof.filter_frequency, mem_sortBy, List.mem_filter]

/-- Witness for `C3_amended`: a row with frequency exactly equal to the
threshold is retained by the fptree filter. -/
theorem C3_amended_witness :
    ({ item := "A", freq := 1/4, weight := 1, label := "" } : ItemRow) ∈
      filter_frequency_and_weight
        [{ item := "A", freq := 1/4, weight := 1, label := "" }] (1/4) 0 := by
  exact (C3_amended.1 _ _ _ _).mpr (by decide)

/-! ### Basic facts about the tree-building steps -/

theorem updateFreq_getElem? (l : List FNode) :
    ∀ (c : Nat) (d : Rat) (i : Nat),
      (updateFreq l c d)[i]? =
        if i = c then (l[i]?).map (fun n => { n with freq := n.freq + d }) else l[i]? := by
  induction l with
  | nil => intro c d i; cases c <;> simp [updateFreq]
  | cons n rest ih =>
    intro c d i
    cases c with
    | zero =>
      cases i with
      | zero => simp [updateFreq]
      | succ j => simp [updateFreq]
    | succ c' =>
      cases i with
      | zero => simp [updateFreq]
      | succ j =>
        simp only [updateFreq, List.getElem?_cons_succ]
        rw [ih c' d j]
        by_cases h : j = c' <;> simp [h]

theorem updateFreq_length (l : List FNode) :
    ∀ (c : Nat) (d : Rat), (updateFreq l c d).length = l.length := by
  induction l with
  | nil => intro c d; cases c <;> rfl
  | cons n rest ih =>
    intro c d
    cases c with
    | zero => rfl
    | succ c' => simpa [updateFreq] using ih c' d

theorem getElem?_snoc (l : List α) (a : α) (i : Nat) :
    (l ++ [a])[i]? = if i < l.length then l[i]? else if i = l.length then some a else none := by
  rw [List.getElem?_append]
  by_cases h : i < l.length
  · rw [if_pos h, if_pos h]
  · rw [if_neg h, if_neg h]
    by_cases h2 : i = l.length
    · rw [if_pos h2, h2, Nat.sub_self]
      rfl
    · rw [if_neg h2]
      have h3 : i - l.length = (i - l.length - 1) + 1 := by omega
      rw [h3]
      rfl

theorem mem_order_transaction (ti : List String) (metrics : List ItemRow) (x : String)
    (h : x ∈ order_transaction ti metrics) : x ∈ metrics.map ItemRow.item := by
  rw [order_transaction] at h
  rcases List.mem_filter.mp ((mem_sortBy _ _ x).mp h) with ⟨_, hx⟩
  exact of_decide_eq_true hx

theorem createNodeE_ok (N : Nat) (metrics : List ItemRow) (st : FPState) (pn : Nat)
    (item : String) (hmem : item ∈ metrics.map ItemRow.item) :
    ∃ row, metrics.find? (fun r => r.item = item) = some row ∧ row.item = item ∧
      row ∈ metrics ∧
      createNodeE N metrics st pn item =
        .ok ({ nodes := st.nodes ++
                 [{ tag := item, parent := some pn, freq := 1 / (N : Rat),
                    weight := row.weight }],
               item_nodes := appendNid st.item_nodes item st.nodes.length },
             st.nodes.length) := by
  have hs : (metrics.find? (fun r => r.item = item)).isSome := by
    rw [List.find?_isSome]
    rcases List.mem_map.mp hmem with ⟨r, hr, hri⟩
    exact ⟨r, hr, decide_eq_true hri⟩
  cases hf : metrics.find? (fun r => r.item = item) with
  | none => rw [hf] at hs; cases hs
  | some row =>
    have hpi := @List.find?_some ItemRow (fun r => decide (r.item = item)) row metrics hf
    refine ⟨row, rfl, of_decide_eq_true hpi, List.mem_of_find?_eq_some hf, ?_⟩
    rw [createNodeE, hf]

theorem insertItemE_ok (N : Nat) (metrics : List ItemRow) (st : FPState) (pn : Nat)
    (item : String) (hmem : item ∈ metrics.map ItemRow.item) :
    ∃ st2 pn2, insertItemE N metrics (.ok (st, pn)) item = .ok (st2, pn2) := by
  rw [insertItemE]
  cases hlk : alookup st.item_nodes item with
  | some nids =>
    by_cases hany : ((childrenNids st.nodes pn).any fun nid => nid ∈ nids) = true
    · simp only [hany, if_true]
      exact ⟨_, _, rfl⟩
    · simp only [hany, if_false]
      rcases createNodeE_ok N metrics st pn item hmem with ⟨row, _, _, _, hcr⟩
      exact ⟨_, _, hcr⟩
  | none =>
    rcases createNodeE_ok N metrics st pn item hmem with ⟨row, _, _, _, hcr⟩
    exact ⟨_, _, hcr⟩

theorem insertItem_fold_ok (N : Nat) (metrics : List ItemRow) :
    ∀ (l : List String) (st : FPState) (pn : Nat),
      (∀ x ∈ l, x ∈ metrics.map ItemRow.item) →
      ∃ st2 pn2, l.foldl (insertItemE N metrics) (.ok (st, pn)) = .ok (st2, pn2) := by
  intro l
  induction l with
  | nil => intro st pn _; exact ⟨st, pn, rfl⟩
  | cons x xs ih =>
    intro st pn hall
    rw [List.foldl_cons]
    rcases insertItemE_ok N metrics st pn x (hall x (List.mem_cons_self x xs)) with
      ⟨st2, pn2, hstep⟩
    rw [hstep]
    exact ih st2 pn2 (fun y hy => hall y (List.mem_cons_of_mem x hy))

theorem insertTransactionE_ok (N : Nat) (metrics : List ItemRow) (st : FPState)
    (ti : List String) :
    ∃ st2, insertTransactionE N metrics (.ok st) ti = .ok st2 := by
  rw [insertTransactionE]
  rcases insertItem_fold_ok N metrics (order_transaction ti metrics) st 0
    (fun x hx => mem_order_transaction ti metrics x hx) with ⟨st2, pn2, hfold⟩
  rw [hfold]
  exact ⟨st2, rfl⟩

theorem insertTransaction_fold_ok (N : Nat) (metrics : List ItemRow) :
    ∀ (l : List (List String)) (st0 : FPState),
      ∃ st, l.foldl (insertTransactionE N metrics) (.ok st0) = .ok st := by
  intro l
  induction l with
  | nil => intro st0; exact ⟨st0, rfl⟩
  | cons t ts ih =>
    intro st0
    rw [List.foldl_cons]
    rcases insertTransactionE_ok N metrics st0 t with ⟨st1, hstep⟩
    rw [hstep]
    exact ih st1

theorem construct_fptree_ok (trans_db : List (List String)) (metrics : List ItemRow) :
    ∃ st, construct_fptree trans_db metrics = .ok st := by
  rw [construct_fptree]
  exact insertTransaction_fold_ok trans_db.length metrics trans_db initState

/-! ### Tags appearing in the tree all come from the metrics table -/

theorem tags_updateFreq (nodes : List FNode) (c : Nat) (d : Rat) (P : String → Prop)
    (h : ∀ i n, nodes[i]? = some n → i ≠ 0 → P n.tag) :
    ∀ i n, (updateFreq nodes c d)[i]? = some n → i ≠ 0 → P n.tag := by
  intro i n hi hne
  rw [updateFreq_getElem?] at hi
  by_cases hic : i = c
  · rw [if_pos hic] at hi
    cases hn0 : nodes[i]? with
    | none => rw [hn0] at hi; cases hi
    | some n0 =>
      rw [hn0] at hi
      have : n = { n0 with freq := n0.freq + d } := by
        simpa using hi.symm
      rw [this]
      exact h i n0 hn0 hne
  · rw [if_neg hic] at hi
    exact h i n hi hne

theorem tags_snoc (nodes : List FNode) (a : FNode) (P : String → Prop)
    (h : ∀ i n, nodes[i]? = some n → i ≠ 0 → P n.tag) (ha : P a.tag) :
    ∀ i n, (nodes ++ [a])[i]? = some n → i ≠ 0 → P n.tag := by
  intro i n hi hne
  rw [getElem?_snoc] at hi
  by_cases h1 : i < nodes.length
  · rw [if_pos h1] at hi
    exact h i n hi hne
  · rw [if_neg h1] at hi
    by_cases h2 : i = nodes.length
    · rw [if_pos h2] at hi
      cases hi
      exact ha
    · rw [if_neg h2] at hi
      cases hi

theorem insertItemE_tags (N : Nat) (metrics : List ItemRow) (st : FPState) (pn : Nat)
    (item : String) (st2 : FPState) (pn2 : Nat)
    (h : insertItemE N metrics (.ok (st, pn)) item = .ok (st2, pn2))
    (hst : ∀ i n, st.nodes[i]? = some n → i ≠ 0 → n.tag ∈ metrics.map ItemRow.item) :
    ∀ i n, st2.nodes[i]? = some n → i ≠ 0 → n.tag ∈ metrics.map ItemRow.item := by
  have hcreate : ∀ (h2 : createNodeE N metrics st pn item = .ok (st2, pn2)),
      ∀ i n, st2.nodes[i]? = some n → i ≠ 0 → n.tag ∈ metrics.map ItemRow.item := by
    intro h2
    rw [createNodeE] at h2
    cases hf : metrics.find? (fun r => r.item = item) with
    | none => rw [hf] at h2; cases h2
    | some row =>
      rw [hf] at h2
      have hrow := @List.find?_some ItemRow (fun r => decide (r.item = item)) row metrics hf
      have hri : row.item = item := of_decide_eq_true hrow
      have hmem : item ∈ metrics.map ItemRow.item :=
        List.mem_map.mpr ⟨row, List.mem_of_find?_eq_some hf, hri⟩
      cases h2
      exact tags_snoc st.nodes _ _ hst hmem
  rw [insertItemE] at h
  cases hlk : alookup st.item_nodes item with
  | some nids =>
    rw [hlk] at h
    by_cases hany : ((childrenNids st.nodes pn).any fun nid => nid ∈ nids) = true
    · simp only [hany, if_true] at h
      cases h
      exact tags_updateFreq st.nodes _ _ _ hst
    · simp only [hany, if_false] at h
      exact hcreate h
  | none =>
    rw [hlk] at h
    exact hcreate h

theorem insertItem_fold_tags (N : Nat) (metrics : List ItemRow) :
    ∀ (l : List String) (st : FPState) (pn : Nat) (st2 : FPState) (pn2 : Nat),
      l.foldl (insertItemE N metrics) (.ok (st, pn)) = .ok (st2, pn2) →
      (∀ i n, st.nodes[i]? = some n → i ≠ 0 → n.tag ∈ metrics.map ItemRow.item) →
      ∀ i n, st2.nodes[i]? = some n → i ≠ 0 → n.tag ∈ metrics.map ItemRow.item := by
  intro l
  induction l with
  | nil =>
    intro st pn st2 pn2 h hst
    cases h
    exact hst
  | cons x xs ih =>
    intro st pn st2 pn2 h hst
    rw [List.foldl_cons] at h
    cases hstep : insertItemE N metrics (.ok (st, pn)) x with
    | error e =>
      rw [hstep] at h
      rw [show ∀ (l' : List String) e', l'.foldl (insertItemE N metrics) (.error e') =
          .error e' by
        intro l'
        induction l' with
        | nil => intro e'; rfl
        | cons y ys ihy => intro e'; simpa [insertItemE] using ihy e'] at h
      cases h
    | ok p =>
      rcases p with ⟨stm, pnm⟩
      rw [hstep] at h
      exact ih stm pnm st2 pn2 h (insertItemE_tags N metrics st pn x stm pnm hstep hst)

theorem insertTransactionE_tags (N : Nat) (metrics : List ItemRow) (st : FPState)
    (ti : List String) (st2 : FPState)
    (h : insertTransactionE N metrics (.ok st) ti = .ok st2)
    (hst : ∀ i n, st.nodes[i]? = some n → i ≠ 0 → n.tag ∈ metrics.map ItemRow.item) :
    ∀ i n, st2.nodes[i]? = some n → i ≠ 0 → n.tag ∈ metrics.map ItemRow.item := by
  rw [insertTransactionE] at h
  cases hfold : (order_transaction ti metrics).foldl (insertItemE N metrics)
      (.ok (st, 0)) with
  | error e => rw [hfold] at h; cases h
  | ok p =>
    rcases p with ⟨stm, pnm⟩
    rw [hfold] at h
    injection h with h2
    subst h2
    exact insertItem_fold_tags N metrics _ st 0 stm pnm hfold hst

theorem construct_fptree_tags (trans_db : List (List String)) (metrics : List ItemRow)
    (st : FPState) (h : construct_fptree trans_db metrics = .ok st) :
    ∀ i n, st.nodes[i]? = some n → i ≠ 0 → n.tag ∈ metrics.map ItemRow.item := by
  rw [construct_fptree] at h
  suffices haux : ∀ (l : List (List String)) (st0 stf : FPState),
      l.foldl (insertTransactionE trans_db.length metrics) (.ok st0) = .ok stf →
      (∀ i n, st0.nodes[i]? = some n → i ≠ 0 → n.tag ∈ metrics.map ItemRow.item) →
      ∀ i n, stf.nodes[i]? = some n → i ≠ 0 → n.tag ∈ metrics.map ItemRow.item by
    refine haux trans_db initState st h ?_
    intro i n hi hne
    cases i with
    | zero => exact absurd rfl hne
    | succ j => cases j <;> cases hi
  intro l
  induction l with
  | nil =>
    intro st0 stf h0 hst
    cases h0
    exact hst
  | cons t ts ih =>
    intro st0 stf h0 hst
    rw [List.foldl_cons] at h0
    cases hstep : insertTransactionE trans_db.length metrics (.ok st0) t with
    | error e =>
      rw [hstep] at h0
      rw [show ∀ (l' : List (List String)) e',
          l'.foldl (insertTransactionE trans_db.length metrics) (.error e') = .error e' by
        intro l'
        induction l' with
        | nil => intro e'; rfl
        | cons y ys ihy => intro e'; simpa [insertTransactionE] using ihy e'] at h0
      cases h0
    | ok stm =>
      rw [hstep] at h0
      exact ih stm stf h0
        (insertTransactionE_tags trans_db.length metrics st0 t stm hstep hst)

/-! ### Claim C6 -/

/-- C6, counterexample: the transaction `["A", "Z"]` contains the item `Z`,
absent from the metrics table, yet `construct_fptree` succeeds (no error) and
the resulting tree contains no trace of `Z`: the item is silently dropped,
construction does not fail fast. -/
theorem C6_counterexample :
    construct_fptree [["A", "Z"]] [{ item := "A", freq := 1, weight := 1, label := "" }] =
      Except.ok { nodes := [rootNode, { tag := "A", parent := some 0, freq := 1, weight := 1 }],
                  item_nodes := [("A", [1])] } := by
  decide

/-- C6, amended: `construct_fptree` never raises, for any transaction
database and metrics table: `order_transaction` silently drops the items
missing from the metrics table before insertion, so every tag in the
resulting tree belongs to the metrics table and absent items simply never
reach it. -/
theorem C6_amended (trans_db : List (List String)) (metrics : List ItemRow) :
    ∃ st, construct_fptree trans_db metrics = .ok st ∧
      ∀ i n, st.nodes[i]? = some n → i ≠ 0 → n.tag ∈ metrics.map ItemRow.item := by
  rcases construct_fptree_ok trans_db metrics with ⟨st, hst⟩
  exact ⟨st, hst, construct_fptree_tags trans_db metrics st hst⟩

/-! ### Keys collected by the two get_branch variants -/

theorem mem_keys_dictSet (d : List (String × Rat)) (k : String) (v : Rat) (t : String) :
    t ∈ (dictSet d k v).map Prod.fst ↔ t ∈ d.map Prod.fst ∨ t = k := by
  rw [dictSet]
  by_cases h : (d.any fun p => p.1 = k) = true
  · rw [if_pos h]
    have hkeys : ((d.map fun p => if p.1 = k then (p.1, v) else p).map Prod.fst) =
        d.map Prod.fst := by
      rw [List.map_map]
      apply List.map_congr_left
      intro p _
      by_cases hpk : p.1 = k <;> simp [hpk]
    rw [hkeys]
    have hk : k ∈ d.map Prod.fst := by
      rcases List.any_eq_true.mp h with ⟨p, hp, he⟩
      exact List.mem_map.mpr ⟨p, hp, of_decide_eq_true he⟩
    constructor
    · exact Or.inl
    · rintro (hb | rfl)
      · exact hb
      · exact hk
  · rw [if_neg h, List.map_append]
    simp

theorem climbBranch_keys (nodes : List FNode) (ltag : String) (pf : Rat) :
    ∀ (fuel pnid : Nat) (branch : List (String × Rat)) (t : String),
      t ∈ (climbBranch nodes ltag pf fuel pnid branch).map Prod.fst ↔
        t ∈ branch.map Prod.fst ∨
          ∃ n ∈ ancNodes nodes fuel pnid, n.tag = t ∧ ltag.take 2 ≠ n.tag.take 2 := by
  intro fuel
  induction fuel with
  | zero =>
    intro pnid branch t
    simp [climbBranch, ancNodes]
  | succ fuel ih =>
    intro pnid branch t
    rw [climbBranch, ancNodes]
    cases hn : nodes[pnid]? with
    | none => simp [hn]
    | some pn =>
      simp only [hn]
      cases hp : pn.parent with
      | none => simp [hp]
      | some gp =>
        simp only [hp]
        by_cases hpref : ltag.take 2 = pn.tag.take 2
        · rw [if_neg (fun hc => hc hpref), ih gp branch t]
          constructor
          · rintro (hb | ⟨n, hn2, ht2, hc⟩)
            · exact Or.inl hb
            · exact Or.inr ⟨n, List.mem_cons_of_mem _ hn2, ht2, hc⟩
          · rintro (hb | ⟨n, hn2, ht2, hc⟩)
            · exact Or.inl hb
            · rcases List.mem_cons.mp hn2 with hne | hn3
              · exact absurd hpref (by rw [hne] at hc; exact hc)
              · exact Or.inr ⟨n, hn3, ht2, hc⟩
        · rw [if_pos hpref, ih gp (dictSet branch pn.tag pf) t, mem_keys_dictSet]
          constructor
          · rintro ((hb | ht) | ⟨n, hn2, ht2, hc⟩)
            · exact Or.inl hb
            · exact Or.inr ⟨pn, List.mem_cons_self _ _, ht.symm, ht ▸ hpref⟩
            · exact Or.inr ⟨n, List.mem_cons_of_mem _ hn2, ht2, hc⟩
          · rintro (hb | ⟨n, hn2, ht2, hc⟩)
            · exact Or.inl (Or.inl hb)
            · rcases List.mem_cons.mp hn2 with hne | hn3
              · exact Or.inl (Or.inr (hne ▸ ht2.symm))
              · exact Or.inr ⟨n, hn3, ht2, hc⟩

theorem wof_climbBranch_keys (nodes : List FNode) (minW : Rat) (pf : Rat) :
    ∀ (fuel pnid : Nat) (branch : List (String × Rat)) (t : String),
      t ∈ (wof.climbBranch nodes minW pf fuel pnid branch).map Prod.fst ↔
        t ∈ branch.map Prod.fst ∨
          ∃ n ∈ ancNodes nodes fuel pnid, n.tag = t ∧ minW ≤ n.weight := by
  intro fuel
  induction fuel with
  | zero =>
    intro pnid branch t
    simp [wof.climbBranch, ancNodes]
  | succ fuel ih =>
    intro pnid branch t
    rw [wof.climbBranch, ancNodes]
    cases hn : nodes[pnid]? with
    | none => simp [hn]
    | some pn =>
      simp only [hn]
      cases hp : pn.parent with
      | none => simp [hp]
      | some gp =>
        simp only [hp]
        by_cases hw : minW ≤ pn.weight
        · rw [if_pos hw, ih gp (dictSet branch pn.tag pf) t, mem_keys_dictSet]
          constructor
          · rintro ((hb | ht) | ⟨n, hn2, ht2, hc⟩)
            · exact Or.inl hb
            · exact Or.inr ⟨pn, List.mem_cons_self _ _, ht.symm, hw⟩
            · exact Or.inr ⟨n, List.mem_cons_of_mem _ hn2, ht2, hc⟩
          · rintro (hb | ⟨n, hn2, ht2, hc⟩)
            · exact Or.inl (Or.inl hb)
            · rcases List.mem_cons.mp hn2 with hne | hn3
              · exact Or.inl (Or.inr (hne ▸ ht2.symm))
              · exact Or.inr ⟨n, hn3, ht2, hc⟩
        · rw [if_neg hw, ih gp branch t]
          constructor
          · rintro (hb | ⟨n, hn2, ht2, hc⟩)
            · exact Or.inl hb
            · exact Or.inr ⟨n, List.mem_cons_of_mem _ hn2, ht2, hc⟩
          · rintro (hb | ⟨n, hn2, ht2, hc⟩)
            · exact Or.inl hb
            · rcases List.mem_cons.mp hn2 with hne | hn3
              · exact absurd (hne ▸ hc) hw
              · exact Or.inr ⟨n, hn3, ht2, hc⟩

/-! ### Claim C7 -/

/-- C7, counterexample: in the tree built from the single transaction
`["GO1", "GO2"]`, the node tagged `GO2` (nid 2) has the non-root ancestor
`GO1`, which shares its 2-character prefix `GO`; `get_branch` of the plain
variant returns the empty pattern base, so the same-category ancestor was
excluded even though no configuration requested it. -/
theorem C7_counterexample :
    construct_fptree [["GO1", "GO2"]]
        [{ item := "GO1", freq := 1, weight := 1, label := "" },
         { item := "GO2", freq := 1, weight := 1, label := "" }] =
      Except.ok
        { nodes := [rootNode,
            { tag := "GO1", parent := some 0, freq := 1, weight := 1 },
            { tag := "GO2", parent := some 1, freq := 1, weight := 1 }],
          item_nodes := [("GO1", [1]), ("GO2", [2])] } ∧
    get_branch
        { nodes := [rootNode,
            { tag := "GO1", parent := some 0, freq := 1, weight := 1 },
            { tag := "GO2", parent := some 1, freq := 1, weight := 1 }],
          item_nodes := [("GO1", [1]), ("GO2", [2])] } 2 = [] := by
  exact ⟨by decide, by decide⟩

/-- C7, amended: the equivalence-class exclusion is not configurable and not
off by default.  In `fptree.get_branch` it is hard-coded and always applied:
the recorded ancestors are exactly the non-root ancestors whose 2-character
prefix differs from the target's.  In `wofptree.get_branch` it is absent:
the recorded ancestors are exactly the non-root ancestors passing the
minimum-weight gate, regardless of prefix. -/
theorem C7_amended (st : FPState) (nid pnid : Nat) (leaf : FNode) (minW : Rat)
    (hleaf : st.nodes[nid]? = some leaf) (hp : leaf.parent = some pnid) :
    (∀ t, t ∈ (get_branch st nid).map Prod.fst ↔
        ∃ n ∈ ancNodes st.nodes st.nodes.length pnid,
          n.tag = t ∧ leaf.tag.take 2 ≠ n.tag.take 2) ∧
    (∀ t, t ∈ (wof.get_branch st nid minW).map Prod.fst ↔
        ∃ n ∈ ancNodes st.nodes st.nodes.length pnid, n.tag = t ∧ minW ≤ n.weight) := by
  constructor
  · intro t
    rw [get_branch]
    simp only [hleaf]
    simp only [hp]
    rw [climbBranch_keys]
    simp
  · intro t
    rw [wof.get_branch]
    simp only [hleaf]
    simp only [hp]
    rw [wof_climbBranch_keys]
    simp

/-- Witness for `C7_amended` on the fixture tree: the node tagged `C`
(nid 3, ancestors `A` then `D`) yields `A` in the plain pattern base and `D`
in the weighted one. -/
theorem C7_amended_witness :
    "A" ∈ (get_branch fixtureTree 3).map Prod.fst ∧
    "D" ∈ (wof.get_branch fixtureTree 3 0).map Prod.fst := by
  have h := C7_amended fixtureTree 3 2
    { tag := "C", parent := some 2, freq := 1/5, weight := 9/10 } 0
    (by decide) (by decide)
  constructor
  · exact (h.1 "A").mpr
      ⟨{ tag := "A", parent := some 1, freq := 2/5, weight := 1/2 },
        by decide, rfl, by decide⟩
  · exact (h.2 "D").mpr
      ⟨{ tag := "D", parent := some 0, freq := 4/5, weight := 7/10 },
        by decide, rfl, by decide⟩

/-! ### Claim C10 -/

theorem foldl_append_flatMap (g : β → List γ) :
    ∀ (l : List β) (acc : List γ),
      l.foldl (fun a x => a ++ g x) acc = acc ++ l.flatMap g := by
  intro l
  induction l with
  | nil => intro acc; simp
  | cons x xs ih =>
    intro acc
    rw [List.foldl_cons, ih, List.flatMap_cons, List.append_assoc]

/-- The rule list is the concatenation, over the metrics items after the
first and over their conditional pattern bases, of the two directional rules
built from the shared co-occurrence support. -/
theorem get_rules_metrics_eq (fptree : FPState) (metrics : List ItemRow) :
    get_rules_metrics fptree metrics =
      ((metrics.map ItemRow.item).drop 1).flatMap (fun item =>
        (get_condition_tree item fptree).flatMap (fun pkv =>
          [get_rule pkv.2 (findRow metrics pkv.1) (findRow metrics item),
           get_rule pkv.2 (findRow metrics item) (findRow metrics pkv.1)])) := by
  have houter : ∀ (l : List String) (acc : List Rule),
      l.foldl (fun acc2 item =>
        (get_condition_tree item fptree).foldl
          (fun acc3 pkv => acc3 ++
            [get_rule pkv.2 (findRow metrics pkv.1) (findRow metrics item),
             get_rule pkv.2 (findRow metrics item) (findRow metrics pkv.1)]) acc2) acc =
        acc ++ l.flatMap (fun item =>
          (get_condition_tree item fptree).flatMap (fun pkv =>
            [get_rule pkv.2 (findRow metrics pkv.1) (findRow metrics item),
             get_rule pkv.2 (findRow metrics item) (findRow metrics pkv.1)])) := by
    intro l
    induction l with
    | nil => intro acc; simp
    | cons x xs ih =>
      intro acc
      rw [List.foldl_cons, foldl_append_flatMap, ih, List.flatMap_cons, List.append_assoc]
  rw [get_rules_metrics]
  exact (houter ((metrics.map ItemRow.item).drop 1) []).trans (List.nil_append _)

/-- C10: for every co-occurring pair of a conditional pattern base, the two
directional rules built from the same shared support `s` are both produced by
`get_rules_metrics` and have the same lift, equal in exact arithmetic to
`s / (freq body * freq head)`. -/
theorem C10_lift_symmetry (fptree : FPState) (metrics : List ItemRow) (item : String)
    (pkv : String × Rat)
    (hitem : item ∈ (metrics.map ItemRow.item).drop 1)
    (hkv : pkv ∈ get_condition_tree item fptree) :
    get_rule pkv.2 (findRow metrics pkv.1) (findRow metrics item) ∈
      get_rules_metrics fptree metrics ∧
    get_rule pkv.2 (findRow metrics item) (findRow metrics pkv.1) ∈
      get_rules_metrics fptree metrics ∧
    (get_rule pkv.2 (findRow metrics pkv.1) (findRow metrics item)).lift =
      pkv.2 / ((findRow metrics pkv.1).freq * (findRow metrics item).freq) ∧
    (get_rule pkv.2 (findRow metrics item) (findRow metrics pkv.1)).lift =
      pkv.2 / ((findRow metrics pkv.1).freq * (findRow metrics item).freq) := by
  refine ⟨?_, ?_, ?_, ?_⟩
  · rw [get_rules_metrics_eq]
    exact List.mem_flatMap.mpr ⟨item, hitem, List.mem_flatMap.mpr ⟨pkv, hkv, by simp⟩⟩
  · rw [get_rules_metrics_eq]
    exact List.mem_flatMap.mpr ⟨item, hitem, List.mem_flatMap.mpr ⟨pkv, hkv, by simp⟩⟩
  · rw [get_rule]
    simp only []
    rw [div_div]
  · rw [get_rule]
    simp only []
    rw [div_div, mul_comm]

/-- Witness for `C10_lift_symmetry` at the fixture: the pair (D, 2/5) of the
conditional pattern base of `A`. -/
theorem C10_lift_symmetry_witness :
    get_rule (2/5) (findRow fixtureMetrics "D") (findRow fixtureMetrics "A") ∈
      get_rules_metrics fixtureTree fixtureMetrics ∧
    (get_rule (2/5) (findRow fixtureMetrics "D") (findRow fixtureMetrics "A")).lift =
      (2/5 : Rat) / ((findRow fixtureMetrics "D").freq * (findRow fixtureMetrics "A").freq) := by
  have h := C10_lift_symmetry fixtureTree fixtureMetrics "A" ("D", 2/5)
    (by decide) (by decide)
  exact ⟨h.1, h.2.2.1⟩

/-! ### Paths: basic lemmas -/

theorem pathTo_zero_eq (nodes : List FNode) : pathTo nodes 0 = [] := rfl

theorem pathAux_zero (nodes : List FNode) (hroot : nodes[0]? = some rootNode) :
    ∀ fuel, pathAux nodes fuel 0 = [] := by
  intro fuel
  cases fuel with
  | zero => rfl
  | succ f => simp [pathAux, hroot, rootNode]

theorem pathAux_stable (nodes : List FNode)
    (hroot : nodes[0]? = some rootNode)
    (hlt : ∀ i n, nodes[i]? = some n → i ≠ 0 → ∃ p, n.parent = some p ∧ p < i) :
    ∀ (nid fuel fuel2 : Nat), nid ≤ fuel → nid ≤ fuel2 →
      pathAux nodes fuel nid = pathAux nodes fuel2 nid := by
  intro nid
  induction nid using Nat.strong_induction_on with
  | _ nid ih =>
    intro fuel fuel2 h1 h2
    by_cases h0 : nid = 0
    · subst h0
      rw [pathAux_zero nodes hroot fuel, pathAux_zero nodes hroot fuel2]
    · cases fuel with
      | zero => omega
      | succ f =>
        cases fuel2 with
        | zero => omega
        | succ f2 =>
          cases hn : nodes[nid]? with
          | none => simp [pathAux, hn]
          | some n =>
            rcases hlt nid n hn h0 with ⟨p, hp, hplt⟩
            simp only [pathAux, hn, hp]
            rw [ih p hplt f f2 (by omega) (by omega)]

theorem pathTo_parent (nodes : List FNode)
    (hroot : nodes[0]? = some rootNode)
    (hlt : ∀ i n, nodes[i]? = some n → i ≠ 0 → ∃ p, n.parent = some p ∧ p < i)
    (i : Nat) (n : FNode) (p : Nat)
    (hi : nodes[i]? = some n) (hne : i ≠ 0) (hp : n.parent = some p) :
    pathTo nodes i = pathTo nodes p ++ [n.tag] := by
  have hplt : p < i := by
    rcases hlt i n hi hne with ⟨p', hp', hlt'⟩
    rw [hp'] at hp
    injection hp with h
    omega
  obtain ⟨i', rfl⟩ : ∃ i', i = i' + 1 := ⟨i - 1, by omega⟩
  show pathAux nodes (i' + 1) (i' + 1) = pathTo nodes p ++ [n.tag]
  simp only [pathAux, hi, hp]
  rw [pathAux_stable nodes hroot hlt p i' p (by omega) (le_refl p)]
  rfl

theorem pathTo_ne_nil (nodes : List FNode)
    (hroot : nodes[0]? = some rootNode)
    (hlt : ∀ i n, nodes[i]? = some n → i ≠ 0 → ∃ p, n.parent = some p ∧ p < i)
    (i : Nat) (n : FNode) (hi : nodes[i]? = some n) (hne : i ≠ 0) :
    pathTo nodes i ≠ [] := by
  rcases hlt i n hi hne with ⟨p, hp, _⟩
  rw [pathTo_parent nodes hroot hlt i n p hi hne hp]
  simp

theorem pathAux_congr (nodes1 nodes2 : List FNode)
    (h : ∀ i : Nat, (nodes1[i]?).map (fun n => (n.tag, n.parent)) =
      (nodes2[i]?).map (fun n => (n.tag, n.parent))) :
    ∀ fuel nid, pathAux nodes1 fuel nid = pathAux nodes2 fuel nid := by
  intro fuel
  induction fuel with
  | zero => intro nid; rfl
  | succ f ih =>
    intro nid
    have hn := h nid
    cases h1 : nodes1[nid]? with
    | none =>
      rw [h1] at hn
      cases h2 : nodes2[nid]? with
      | none => simp [pathAux, h1, h2]
      | some n2 => rw [h2] at hn; cases hn
    | some n1 =>
      rw [h1] at hn
      cases h2 : nodes2[nid]? with
      | none => rw [h2] at hn; cases hn
      | some n2 =>
        rw [h2] at hn
        have hn2 : (n1.tag, n1.parent) = (n2.tag, n2.parent) := Option.some_injective _ hn
        have htag : n1.tag = n2.tag := congrArg Prod.fst hn2
        have hpar : n1.parent = n2.parent := congrArg Prod.snd hn2
        simp only [pathAux, h1, h2, hpar, htag]
        cases n2.parent with
        | none => rfl
        | some p =>
          show pathAux nodes1 f p ++ [n2.tag] = pathAux nodes2 f p ++ [n2.tag]
          rw [ih p]

theorem pathAux_snoc (nodes : List FNode) (a : FNode)
    (hroot : nodes[0]? = some rootNode)
    (hlt : ∀ i n, nodes[i]? = some n → i ≠ 0 → ∃ p, n.parent = some p ∧ p < i) :
    ∀ (fuel nid : Nat), nid < nodes.length →
      pathAux (nodes ++ [a]) fuel nid = pathAux nodes fuel nid := by
  intro fuel
  induction fuel with
  | zero => intro nid _; rfl
  | succ f ih =>
    intro nid hnid
    have hget : (nodes ++ [a])[nid]? = nodes[nid]? := by
      rw [getElem?_snoc, if_pos hnid]
    cases hn : nodes[nid]? with
    | none => simp [pathAux, hget, hn]
    | some n =>
      simp only [pathAux, hget, hn]
      by_cases h0 : nid = 0
      · subst h0
        rw [hroot] at hn
        injection hn with hn2
        rw [← hn2]
        rfl
      · rcases hlt nid n hn h0 with ⟨p', hp', hplt⟩
        rw [hp']
        show pathAux (nodes ++ [a]) f p' ++ [n.tag] = pathAux nodes f p' ++ [n.tag]
        rw [ih p' (by omega)]

theorem pathTo_snoc_old (nodes : List FNode) (a : FNode)
    (hroot : nodes[0]? = some rootNode)
    (hlt : ∀ i n, nodes[i]? = some n → i ≠ 0 → ∃ p, n.parent = some p ∧ p < i)
    (nid : Nat) (hnid : nid < nodes.length) :
    pathTo (nodes ++ [a]) nid = pathTo nodes nid :=
  pathAux_snoc nodes a hroot hlt nid nid hnid

theorem pathTo_snoc_new (nodes : List FNode) (a : FNode) (pn : Nat)
    (hroot : nodes[0]? = some rootNode)
    (hlt : ∀ i n, nodes[i]? = some n → i ≠ 0 → ∃ p, n.parent = some p ∧ p < i)
    (hpn : pn < nodes.length) (hpar : a.parent = some pn) :
    pathTo (nodes ++ [a]) nodes.length = pathTo nodes pn ++ [a.tag] := by
  have hlen : 0 < nodes.length := by
    cases hnn : nodes with
    | nil => rw [hnn] at hroot; cases hroot
    | cons x xs => simp [hnn]
  obtain ⟨l', hl⟩ : ∃ l', nodes.length = l' + 1 := ⟨nodes.length - 1, by omega⟩
  have hgets : (nodes ++ [a])[nodes.length]? = some a := by
    rw [getElem?_snoc, if_neg (by omega), if_pos rfl]
  show pathAux (nodes ++ [a]) nodes.length nodes.length = pathTo nodes pn ++ [a.tag]
  rw [hl]
  simp only [pathAux]
  rw [← hl, hgets]
  show (match a.parent with
    | none => ([] : List String)
    | some p => pathAux (nodes ++ [a]) l' p ++ [a.tag]) = pathTo nodes pn ++ [a.tag]
  rw [hpar]
  show pathAux (nodes ++ [a]) l' pn ++ [a.tag] = pathTo nodes pn ++ [a.tag]
  rw [pathAux_snoc nodes a hroot hlt l' pn hpn]
  rw [pathAux_stable nodes hroot hlt pn l' pn (by omega) (le_refl pn)]
  rfl

theorem updateFreq_shape (nodes : List FNode) (c : Nat) (d : Rat) (i : Nat) :
    ((updateFreq nodes c d)[i]?).map (fun n => (n.tag, n.parent)) =
      (nodes[i]?).map (fun n => (n.tag, n.parent)) := by
  rw [updateFreq_getElem?]
  by_cases h : i = c
  · rw [if_pos h]
    cases nodes[i]? <;> simp
  · rw [if_neg h]

theorem pathTo_updateFreq (nodes : List FNode) (c : Nat) (d : Rat) (nid : Nat) :
    pathTo (updateFreq nodes c d) nid = pathTo nodes nid :=
  pathAux_congr _ _ (fun i => updateFreq_shape nodes c d i) nid nid

/-! ### Children, minima and the item-nodes index -/

theorem mem_childrenNids (nodes : List FNode) (p i : Nat) :
    i ∈ childrenNids nodes p ↔ ∃ n, nodes[i]? = some n ∧ n.parent = some p := by
  rw [childrenNids, List.mem_filter, List.mem_range]
  constructor
  · rintro ⟨hi, hopt⟩
    cases hn : nodes[i]? with
    | none => rw [hn] at hopt; cases hopt
    | some n =>
      rw [hn] at hopt
      exact ⟨n, rfl, of_decide_eq_true (by simpa [Option.any] using hopt)⟩
  · rintro ⟨n, hn, hp⟩
    have hi : i < nodes.length := by
      by_contra hcon
      rw [List.getElem?_eq_none (by omega)] at hn
      cases hn
    refine ⟨hi, ?_⟩
    rw [hn]
    simpa [Option.any] using hp

theorem listMinD_const (c : Nat) : ∀ (l : List Nat), (∀ x ∈ l, x = c) → listMinD l c = c := by
  intro l
  induction l with
  | nil => intro _; rfl
  | cons x xs ih =>
    intro h
    have hx : x = c := h x (List.mem_cons_self x xs)
    rw [listMinD, hx, min_self]
    exact ih (fun y hy => h y (List.mem_cons_of_mem x hy))

theorem minNid_const (l : List Nat) (c : Nat) (hne : l ≠ []) (h : ∀ x ∈ l, x = c) :
    minNid l = c := by
  cases l with
  | nil => exact absurd rfl hne
  | cons x xs =>
    rw [minNid]
    have hx : x = c := h x (List.mem_cons_self x xs)
    rw [hx]
    exact listMinD_const c xs (fun y hy => h y (List.mem_cons_of_mem x hy))

theorem alookup_cons (p : String × α) (m : List (String × α)) (k : String) :
    alookup (p :: m) k = if p.1 = k then some p.2 else alookup m k := by
  rw [alookup, alookup]
  by_cases h : p.1 = k
  · rw [List.find?_cons_of_pos _ (by simpa using h), if_pos h]
    rfl
  · rw [List.find?_cons_of_neg _ (by simpa using h), if_neg h]

theorem alookup_nil (k : String) : alookup ([] : List (String × α)) k = none := rfl

theorem alookup_appendNid (item : String) (nid : Nat) :
    ∀ (m : List (String × List Nat)) (k : String),
      alookup (appendNid m item nid) k =
        if k = item then some (((alookup m item).getD []) ++ [nid]) else alookup m k := by
  intro m
  induction m with
  | nil =>
    intro k
    rw [appendNid]
    simp only [List.any_nil, Bool.false_eq_true, if_false, List.nil_append]
    rw [alookup_cons]
    by_cases hk : k = item
    · rw [if_pos (hk.symm), if_pos hk, alookup_nil]
      rfl
    · rw [if_neg (fun h => hk h.symm), if_neg hk]
  | cons q rest ih =>
    intro k
    rw [appendNid]
    by_cases hq : q.1 = item
    · have hany : ((q :: rest).any fun p => p.1 = item) = true :=
        List.any_eq_true.mpr ⟨q, List.mem_cons_self q rest, decide_eq_true hq⟩
      rw [if_pos hany]
      rw [List.map_cons, if_pos hq, alookup_cons]
      by_cases hk : k = item
      · have hqk : q.1 = k := by rw [hq, hk]
        rw [if_pos hqk, if_pos hk, alookup_cons, if_pos hq]
        rfl
      · have hqk : ¬ q.1 = k := fun h => hk (by rw [← h, hq])
        rw [if_neg hqk, if_neg hk]
        have hfix : alookup (rest.map fun p =>
            if p.1 = item then (p.1, p.2 ++ [nid]) else p) k = alookup rest k := by
          clear ih hany
          induction rest with
          | nil => rfl
          | cons r rs ihr =>
            rw [List.map_cons]
            by_cases hr : r.1 = item
            · rw [if_pos hr, alookup_cons, alookup_cons]
              have hrk : ¬ r.1 = k := fun h => hk (by rw [← h, hr])
              rw [if_neg hrk, if_neg hrk]
              exact ihr
            · rw [if_neg hr, alookup_cons, alookup_cons]
              by_cases hrk : r.1 = k
              · rw [if_pos hrk, if_pos hrk]
              · rw [if_neg hrk, if_neg hrk]
                exact ihr
        rw [hfix, alookup_cons, if_neg hqk]
    · by_cases hrest : (rest.any fun p => p.1 = item) = true
      · have hany : ((q :: rest).any fun p => p.1 = item) = true := by
          rw [List.any_cons]
          rw [hrest]
          simp
        rw [if_pos hany, List.map_cons, if_neg hq, alookup_cons]
        have hq2 : appendNid rest item nid =
            rest.map fun p => if p.1 = item then (p.1, p.2 ++ [nid]) else p := by
          rw [appendNid, if_pos hrest]
        by_cases hqk : q.1 = k
        · have hk : ¬ k = item := fun h => hq (by rw [hqk, h])
          rw [if_pos hqk, if_neg hk, alookup_cons, if_pos hqk]
        · rw [if_neg hqk, ← hq2, ih k]
          by_cases hk : k = item
          · rw [if_pos hk, if_pos hk, alookup_cons]
            have hqi : ¬ q.1 = item := hq
            rw [if_neg (by rw [hk] at hqk; exact hqk)]
          · rw [if_neg hk, if_neg hk, alookup_cons, if_neg hqk]
      · have hany : ¬ ((q :: rest).any fun p => p.1 = item) = true := by
          rw [List.any_cons, Bool.or_eq_true]
          push_neg
          exact ⟨by simpa using hq, hrest⟩
        rw [if_neg hany, List.cons_append, alookup_cons]
        have hq2 : appendNid rest item nid = rest ++ [(item, [nid])] := by
          rw [appendNid, if_neg hrest]
        by_cases hqk : q.1 = k
        · have hk : ¬ k = item := fun h => hq (by rw [hqk, h])
          rw [if_pos hqk, if_neg hk, alookup_cons, if_pos hqk]
        · rw [if_neg hqk, ← hq2, ih k]
          by_cases hk : k = item
          · rw [if_pos hk, if_pos hk, alookup_cons, if_neg (by rw [hk] at hqk; exact hqk)]
          · rw [if_neg hk, if_neg hk, alookup_cons, if_neg hqk]

/-! ### Summation helpers -/

theorem getElem?_lt (l : List α) (i : Nat) (a : α) (h : l[i]? = some a) : i < l.length := by
  by_contra hc
  rw [List.getElem?_eq_none (by omega)] at h
  cases h

theorem exists_getElem?_of_lt (l : List α) (i : Nat) (h : i < l.length) :
    ∃ a, l[i]? = some a := ⟨l[i], List.getElem?_eq_getElem h⟩

theorem sum_map_congr_on (l : List Nat) (f g : Nat → Rat)
    (h : ∀ x ∈ l, f x = g x) : (l.map f).sum = (l.map g).sum := by
  rw [List.map_congr_left h]

theorem sum_map_bump (d : Rat) :
    ∀ (l : List Nat) (c : Nat) (f g : Nat → Rat), l.Nodup → c ∈ l →
      (∀ x ∈ l, x ≠ c → g x = f x) → g c = f c + d →
      (l.map g).sum = (l.map f).sum + d := by
  intro l
  induction l with
  | nil => intro c f g _ hc; cases hc
  | cons x xs ih =>
    intro c f g hnd hc hoth hgc
    rw [List.nodup_cons] at hnd
    rw [List.map_cons, List.map_cons, List.sum_cons, List.sum_cons]
    rcases List.mem_cons.mp hc with hxc | hc2
    · have hgx : g x = f x + d := by rw [hxc] at hgc; exact hgc
      have hxs : (xs.map g).sum = (xs.map f).sum := by
        apply sum_map_congr_on
        intro y hy
        have hyc : y ≠ c := by
          intro h
          rw [h, hxc] at hy
          exact hnd.1 hy
        exact hoth y (List.mem_cons_of_mem x hy) hyc
      rw [hgx, hxs]
      ring
    · have hxc : x ≠ c := fun h => hnd.1 (h ▸ hc2)
      rw [hoth x (List.mem_cons_self x xs) hxc]
      rw [ih c f g hnd.2 hc2 (fun y hy hyc => hoth y (List.mem_cons_of_mem x hy) hyc) hgc]
      ring

/-! ### Preservation of the invariant: the navigate branch -/

theorem goodMid_navigate (N : Nat) (metrics : List ItemRow) (st : FPState) (pn : Nat)
    (processed : List (List String)) (udone : List String) (item : String)
    (c : Nat) (cn : FNode)
    (G : GoodMid N metrics st pn processed udone)
    (hcget : st.nodes[c]? = some cn) (hcpar : cn.parent = some pn) (hctag : cn.tag = item) :
    GoodMid N metrics { st with nodes := updateFreq st.nodes c (1 / (N : Rat)) } c
      processed (udone ++ [item]) := by
  obtain ⟨root_node, parent_lt, inodes, nodup_nids, path_inj, pn_lt, pn_path, freq_eq,
    covered, covered_done, path_sorted, sum_le⟩ := G
  have hc0 : c ≠ 0 := by
    intro h
    subst h
    rw [root_node] at hcget
    injection hcget with h2
    rw [← h2] at hcpar
    cases hcpar
  have hclt : c < st.nodes.length := getElem?_lt _ _ _ hcget
  have hpathc : pathTo st.nodes c = udone ++ [item] := by
    rw [pathTo_parent st.nodes root_node parent_lt c cn pn hcget hc0 hcpar, pn_path, hctag]
  have hlen : (updateFreq st.nodes c (1 / (N : Rat))).length = st.nodes.length :=
    updateFreq_length st.nodes c _
  have hpath2 : ∀ i, pathTo (updateFreq st.nodes c (1 / (N : Rat))) i = pathTo st.nodes i :=
    pathTo_updateFreq st.nodes c _
  have huniq : ∀ i, i < st.nodes.length → pathTo st.nodes i = udone ++ [item] → i = c :=
    fun i hi hp => path_inj i c hi hclt (by rw [hp, hpathc])
  refine ⟨?_, ?_, ?_, ?_, ?_, ?_, ?_, ?_, ?_, ?_, ?_, ?_⟩
  · show (updateFreq st.nodes c (1 / (N : Rat)))[0]? = some rootNode
    rw [updateFreq_getElem?, if_neg (fun h => hc0 h.symm)]
    exact root_node
  · intro i n hi hne
    rw [updateFreq_getElem?] at hi
    by_cases hic : i = c
    · rw [if_pos hic] at hi
      cases hg : st.nodes[i]? with
      | none => rw [hg] at hi; cases hi
      | some n0 =>
        rw [hg] at hi
        have hn : n = { n0 with freq := n0.freq + 1 / (N : Rat) } := by simpa using hi.symm
        rcases parent_lt i n0 hg hne with ⟨p, hp, hplt⟩
        exact ⟨p, by rw [hn]; exact hp, hplt⟩
    · rw [if_neg hic] at hi
      exact parent_lt i n hi hne
  · intro itm nid
    show nid ∈ (alookup st.item_nodes itm).getD [] ↔ _
    rw [inodes itm nid]
    constructor
    · rintro ⟨n, hn, htag, hne⟩
      by_cases hnc : nid = c
      · refine ⟨{ n with freq := n.freq + 1 / (N : Rat) }, ?_, htag, hne⟩
        rw [updateFreq_getElem?, if_pos hnc, hn]
        rfl
      · exact ⟨n, by rw [updateFreq_getElem?, if_neg hnc]; exact hn, htag, hne⟩
    · rintro ⟨n, hn, htag, hne⟩
      rw [updateFreq_getElem?] at hn
      by_cases hnc : nid = c
      · rw [if_pos hnc] at hn
        cases hg : st.nodes[nid]? with
        | none => rw [hg] at hn; cases hn
        | some n0 =>
          rw [hg] at hn
          have hne2 : n = { n0 with freq := n0.freq + 1 / (N : Rat) } := by simpa using hn.symm
          refine ⟨n0, rfl, ?_, hne⟩
          rw [← htag, hne2]
      · rw [if_neg hnc] at hn
        exact ⟨n, hn, htag, hne⟩
  · exact nodup_nids
  · intro i j hi hj hp
    rw [hlen] at hi hj
    rw [hpath2, hpath2] at hp
    exact path_inj i j hi hj hp
  · rw [hlen]
    exact hclt
  · rw [hpath2]
    exact hpathc
  · intro i n hi hne
    have hcnt : ∀ t : List String,
        ((pathTo (updateFreq st.nodes c (1 / (N : Rat))) i).isPrefixOf
          (order_transaction t metrics)) =
        ((pathTo st.nodes i).isPrefixOf (order_transaction t metrics)) := by
      intro t
      rw [hpath2]
    rw [updateFreq_getElem?] at hi
    by_cases hic : i = c
    · subst hic
      rw [if_pos rfl] at hi
      rw [hcget] at hi
      have hn : n = { cn with freq := cn.freq + 1 / (N : Rat) } := by simpa using hi.symm
      have hold := freq_eq i cn hcget hne
      have hite : (if pathTo st.nodes i ≠ [] ∧ pathTo st.nodes i <+: udone
          then 1 / (N : Rat) else 0) = 0 := by
        rw [if_neg]
        rintro ⟨-, hpre⟩
        rw [hpathc] at hpre
        have := hpre.length_le
        simp at this
      rw [hn]
      show cn.freq + 1 / (N : Rat) = _
      rw [hold, hite]
      simp only [hpath2]
      rw [if_pos ⟨by rw [hpathc]; simp, by rw [hpathc]⟩]
      ring
    · rw [if_neg hic] at hi
      have hold := freq_eq i n hi hne
      simp only [hpath2]
      rw [hold]
      have hiv : i < st.nodes.length := getElem?_lt _ _ _ hi
      have hne2 : pathTo st.nodes i ≠ udone ++ [item] :=
        fun h => hic (huniq i hiv h)
      by_cases hp1 : pathTo st.nodes i ≠ [] ∧ pathTo st.nodes i <+: udone
      · rw [if_pos hp1, if_pos ⟨hp1.1, hp1.2.trans (by simp)⟩]
      · rw [if_neg hp1, if_neg]
        rintro ⟨hnil, hpre⟩
        rcases List.prefix_concat_iff.mp hpre with h | h
        · exact hne2 h
        · exact hp1 ⟨hnil, h⟩
  · intro t ht j
    rcases covered t ht j with ⟨i, hi, hp⟩
    exact ⟨i, by rw [hlen]; exact hi, by rw [hpath2]; exact hp⟩
  · intro j
    by_cases hj : j ≤ udone.length
    · rcases covered_done j with ⟨i, hi, hp⟩
      refine ⟨i, by rw [hlen]; exact hi, ?_⟩
      rw [hpath2, List.take_append_of_le_length hj]
      exact hp
    · refine ⟨c, by rw [hlen]; exact hclt, ?_⟩
      rw [hpath2, hpathc, List.take_of_length_le]
      simp
      omega
  · intro i hi
    rw [hlen] at hi
    rw [hpath2]
    exact path_sorted i hi
  · intro itm
    have hlist : (alookup ({ st with nodes := updateFreq st.nodes c (1 / (N : Rat)) } :
        FPState).item_nodes itm) = alookup st.item_nodes itm := rfl
    show itemNodeFreqSum _ itm ≤ _
    rw [itemNodeFreqSum, hlist]
    by_cases hitm : itm = item
    · subst hitm
      have hcmem : c ∈ (alookup st.item_nodes itm).getD [] :=
        (inodes itm c).mpr ⟨cn, hcget, hctag, hc0⟩
      have hsum := sum_map_bump (1 / (N : Rat)) ((alookup st.item_nodes itm).getD []) c
        (fun nid => match st.nodes[nid]? with | some n => n.freq | none => 0)
        (fun nid => match (updateFreq st.nodes c (1 / (N : Rat)))[nid]? with
          | some n => n.freq | none => 0)
        (nodup_nids itm) hcmem ?_ ?_
      · rw [hsum]
        have := sum_le itm
        rw [itemNodeFreqSum] at this
        have hcount : ((udone ++ [itm]).count itm : Rat) = (udone.count itm : Rat) + 1 := by
          rw [List.count_append]
          push_cast
          simp
        rw [List.count_append]
        push_cast
        have hc1 : List.count itm [itm] = 1 := by simp
        rw [hc1]
        push_cast
        calc (((alookup st.item_nodes itm).getD []).map fun nid =>
              match st.nodes[nid]? with | some n => n.freq | none => 0).sum + 1 / (N : Rat) ≤
            ((processed.flatten.count itm : Nat) : Rat) / (N : Rat) +
              ((udone.count itm : Nat) : Rat) / (N : Rat) + 1 / (N : Rat) := by
              linarith
          _ = ((processed.flatten.count itm : Nat) : Rat) / (N : Rat) +
              (((udone.count itm : Nat) : Rat) + 1) / (N : Rat) := by
              ring
      · intro x hx hxc
        simp only [updateFreq_getElem?, if_neg hxc]
      · simp [updateFreq_getElem?, hcget]
    · have hnone : ∀ x ∈ (alookup st.item_nodes itm).getD [], x ≠ c := by
        intro x hx
        rcases (inodes itm x).mp hx with ⟨n, hn, htag, _⟩
        intro hxc
        rw [hxc, hcget] at hn
        injection hn with h2
        rw [← h2] at htag
        exact hitm (htag ▸ hctag)
      have hsame : ((((alookup st.item_nodes itm).getD []).map fun nid =>
          match (updateFreq st.nodes c (1 / (N : Rat)))[nid]? with
          | some n => n.freq | none => 0)).sum =
          ((((alookup st.item_nodes itm).getD []).map fun nid =>
          match st.nodes[nid]? with | some n => n.freq | none => 0)).sum := by
        apply sum_map_congr_on
        intro x hx
        rw [updateFreq_getElem?, if_neg (hnone x hx)]
      rw [hsame]
      have := sum_le itm
      rw [itemNodeFreqSum] at this
      have hcount : (udone ++ [item]).count itm = udone.count itm := by
        rw [List.count_append]
        have : List.count itm [item] = 0 := by
          rw [List.count_eq_zero]
          simp
          exact fun h => hitm h
        omega
      rw [hcount]
      exact this

/-! ### Preservation of the invariant: the create branch -/

theorem goodMid_create (N : Nat) (metrics : List ItemRow) (st : FPState) (pn : Nat)
    (processed : List (List String)) (udone : List String) (item : String) (w : Rat)
    (G : GoodMid N metrics st pn processed udone)
    (hord : ∀ a ∈ udone, (metrics.map ItemRow.item).indexOf a ≤
      (metrics.map ItemRow.item).indexOf item)
    (hnochild : ¬ ∃ (c : Nat) (n : FNode),
      st.nodes[c]? = some n ∧ n.parent = some pn ∧ n.tag = item) :
    GoodMid N metrics
      { nodes := st.nodes ++
          [{ tag := item, parent := some pn, freq := 1 / (N : Rat), weight := w }],
        item_nodes := appendNid st.item_nodes item st.nodes.length }
      st.nodes.length processed (udone ++ [item]) := by
  obtain ⟨root_node, parent_lt, inodes, nodup_nids, path_inj, pn_lt, pn_path, freq_eq,
    covered, covered_done, path_sorted, sum_le⟩ := G
  set a : FNode :=
    { tag := item, parent := some pn, freq := 1 / (N : Rat), weight := w } with ha
  set L := st.nodes.length with hL
  have hpath_old : ∀ i, i < L → pathTo (st.nodes ++ [a]) i = pathTo st.nodes i :=
    fun i hi => pathTo_snoc_old st.nodes a root_node parent_lt i hi
  have hpath_new : pathTo (st.nodes ++ [a]) L = udone ++ [item] := by
    rw [pathTo_snoc_new st.nodes a pn root_node parent_lt pn_lt rfl, pn_path]
  have hlen2 : (st.nodes ++ [a]).length = L + 1 := by simp
  have hnotold : ∀ i, i < L → pathTo st.nodes i ≠ udone ++ [item] := by
    intro i hi hp
    have hi0 : i ≠ 0 := by
      intro h
      rw [h, pathTo_zero_eq] at hp
      exact absurd hp.symm (by simp)
    rcases exists_getElem?_of_lt st.nodes i hi with ⟨n, hn⟩
    rcases parent_lt i n hn hi0 with ⟨p, hpp, hplt⟩
    rw [pathTo_parent st.nodes root_node parent_lt i n p hn hi0 hpp] at hp
    rcases List.append_inj' hp rfl with ⟨hp1, hp2⟩
    have htag : n.tag = item := by injection hp2
    have hppath : pathTo st.nodes p = pathTo st.nodes pn := by rw [hp1, pn_path]
    have hplt2 : p < L := by omega
    have hpe : p = pn := path_inj p pn hplt2 pn_lt hppath
    exact hnochild ⟨i, n, hn, by rw [hpe] at hpp; exact hpp, htag⟩
  have hcount0 : processed.countP
      (fun t => (udone ++ [item]).isPrefixOf (order_transaction t metrics)) = 0 := by
    rw [List.countP_eq_zero]
    intro t ht hpre
    have hpre2 : udone ++ [item] <+: order_transaction t metrics :=
      List.isPrefixOf_iff_prefix.mp hpre
    rcases covered t ht (udone.length + 1) with ⟨i, hi, hp⟩
    have htake : (order_transaction t metrics).take (udone.length + 1) = udone ++ [item] := by
      have heq := List.prefix_iff_eq_take.mp hpre2
      have hlen3 : (udone ++ [item]).length = udone.length + 1 := by simp
      rw [hlen3] at heq
      exact heq.symm
    rw [htake] at hp
    exact hnotold i hi hp
  have hget_old : ∀ i, i < L → (st.nodes ++ [a])[i]? = st.nodes[i]? := by
    intro i hi
    rw [getElem?_snoc, if_pos hi]
  have hget_new : (st.nodes ++ [a])[L]? = some a := by
    rw [getElem?_snoc, if_neg (by omega), if_pos rfl]
  have hvalid_nids : ∀ (itm : String) (nid : Nat),
      nid ∈ (alookup st.item_nodes itm).getD [] → nid < L := by
    intro itm nid hnid
    rcases (inodes itm nid).mp hnid with ⟨n, hn, _, _⟩
    exact getElem?_lt _ _ _ hn
  refine ⟨?_, ?_, ?_, ?_, ?_, ?_, ?_, ?_, ?_, ?_, ?_, ?_⟩
  · show (st.nodes ++ [a])[0]? = some rootNode
    have h0 : 0 < L := getElem?_lt _ _ _ root_node
    rw [hget_old 0 h0]
    exact root_node
  · intro i n hi hne
    rw [getElem?_snoc] at hi
    by_cases h1 : i < L
    · rw [if_pos h1] at hi
      exact parent_lt i n hi hne
    · rw [if_neg h1] at hi
      by_cases h2 : i = L
      · rw [if_pos h2] at hi
        injection hi with hi2
        refine ⟨pn, ?_, ?_⟩
        · rw [← hi2]
        · omega
      · rw [if_neg h2] at hi
        cases hi
  · intro itm nid
    show nid ∈ (alookup (appendNid st.item_nodes item L) itm).getD [] ↔ _
    rw [alookup_appendNid]
    by_cases hitm : itm = item
    · subst hitm
      rw [if_pos rfl]
      simp only [Option.getD_some]
      rw [List.mem_append, List.mem_singleton]
      constructor
      · rintro (hold | hnew)
        · rcases (inodes itm nid).mp hold with ⟨n, hn, htag, hne⟩
          have hlt := getElem?_lt _ _ _ hn
          exact ⟨n, by rw [hget_old nid hlt]; exact hn, htag, hne⟩
        · subst hnew
          refine ⟨a, hget_new, rfl, ?_⟩
          have h0 : 0 < L := getElem?_lt _ _ _ root_node
          omega
      · rintro ⟨n, hn, htag, hne⟩
        rw [getElem?_snoc] at hn
        by_cases h1 : nid < L
        · rw [if_pos h1] at hn
          exact Or.inl ((inodes itm nid).mpr ⟨n, hn, htag, hne⟩)
        · by_cases h2 : nid = L
          · exact Or.inr h2
          · rw [if_neg h1, if_neg h2] at hn
            cases hn
    · rw [if_neg hitm]
      rw [inodes itm nid]
      constructor
      · rintro ⟨n, hn, htag, hne⟩
        have hlt := getElem?_lt _ _ _ hn
        exact ⟨n, by rw [hget_old nid hlt]; exact hn, htag, hne⟩
      · rintro ⟨n, hn, htag, hne⟩
        rw [getElem?_snoc] at hn
        by_cases h1 : nid < L
        · rw [if_pos h1] at hn
          exact ⟨n, hn, htag, hne⟩
        · by_cases h2 : nid = L
          · rw [if_neg h1, if_pos h2] at hn
            injection hn with hn2
            rw [← hn2] at htag
            have : item = itm := htag
            exact absurd this.symm hitm
          · rw [if_neg h1, if_neg h2] at hn
            cases hn
  · intro itm
    show ((alookup (appendNid st.item_nodes item L) itm).getD []).Nodup
    rw [alookup_appendNid]
    by_cases hitm : itm = item
    · subst hitm
      rw [if_pos rfl]
      simp only [Option.getD_some]
      rw [List.nodup_append]
      refine ⟨nodup_nids itm, List.nodup_singleton L, ?_⟩
      intro x hx
      have := hvalid_nids itm x hx
      simp only [List.mem_singleton]
      omega
    · rw [if_neg hitm]
      exact nodup_nids itm
  · intro i j hi hj hp
    rw [hlen2] at hi hj
    by_cases h1 : i < L <;> by_cases h2 : j < L
    · rw [hpath_old i h1, hpath_old j h2] at hp
      exact path_inj i j h1 h2 hp
    · have hj2 : j = L := by omega
      rw [hpath_old i h1, hj2, hpath_new] at hp
      exact absurd hp (hnotold i h1)
    · have hi2 : i = L := by omega
      rw [hi2, hpath_new, hpath_old j h2] at hp
      exact absurd hp.symm (hnotold j h2)
    · omega
  · rw [hlen2]
    omega
  · exact hpath_new
  · intro i n hi hne
    rw [getElem?_snoc] at hi
    by_cases h1 : i < L
    · rw [if_pos h1] at hi
      have hold := freq_eq i n hi hne
      rw [hpath_old i h1, hold]
      have hne2 : pathTo st.nodes i ≠ udone ++ [item] := hnotold i h1
      by_cases hp1 : pathTo st.nodes i ≠ [] ∧ pathTo st.nodes i <+: udone
      · rw [if_pos hp1, if_pos ⟨hp1.1, hp1.2.trans (by simp)⟩]
      · rw [if_neg hp1, if_neg]
        rintro ⟨hnil, hpre⟩
        rcases List.prefix_concat_iff.mp hpre with h | h
        · exact hne2 h
        · exact hp1 ⟨hnil, h⟩
    · by_cases h2 : i = L
      · rw [if_neg h1, if_pos h2] at hi
        injection hi with hi2
        rw [h2, hpath_new, ← hi2]
        show (1 : Rat) / (N : Rat) = _
        rw [hcount0]
        rw [if_pos ⟨by simp, List.prefix_refl _⟩]
        simp
      · rw [if_neg h1, if_neg h2] at hi
        cases hi
  · intro t ht j
    rcases covered t ht j with ⟨i, hi, hp⟩
    refine ⟨i, ?_, ?_⟩
    · show i < (st.nodes ++ [a]).length
      rw [hlen2]
      omega
    · rw [hpath_old i hi]
      exact hp
  · intro j
    by_cases hj : j ≤ udone.length
    · rcases covered_done j with ⟨i, hi, hp⟩
      refine ⟨i, ?_, ?_⟩
      · show i < (st.nodes ++ [a]).length
        rw [hlen2]
        omega
      · rw [hpath_old i hi, List.take_append_of_le_length hj]
        exact hp
    · refine ⟨L, ?_, ?_⟩
      · show L < (st.nodes ++ [a]).length
        rw [hlen2]
        omega
      · rw [hpath_new, List.take_of_length_le]
        simp
        omega
  · intro i hi
    rw [hlen2] at hi
    by_cases h1 : i < L
    · rw [hpath_old i h1]
      exact path_sorted i h1
    · have h2 : i = L := by omega
      rw [h2, hpath_new]
      rw [List.pairwise_append]
      refine ⟨by rw [← pn_path]; exact path_sorted pn pn_lt, List.pairwise_singleton _ _, ?_⟩
      intro x hx y hy
      rw [List.mem_singleton] at hy
      rw [hy]
      exact hord x hx
  · intro itm
    show itemNodeFreqSum _ itm ≤ _
    rw [itemNodeFreqSum]
    show ((alookup (appendNid st.item_nodes item L) itm).getD [] |>.map fun nid =>
      match (st.nodes ++ [a])[nid]? with | some n => n.freq | none => 0).sum ≤ _
    rw [alookup_appendNid]
    have hsum_old : ∀ itm2 : String,
        ((((alookup st.item_nodes itm2).getD []).map fun nid =>
          match (st.nodes ++ [a])[nid]? with | some n => n.freq | none => 0)).sum =
        ((((alookup st.item_nodes itm2).getD []).map fun nid =>
          match st.nodes[nid]? with | some n => n.freq | none => 0)).sum := by
      intro itm2
      apply sum_map_congr_on
      intro x hx
      rw [hget_old x (hvalid_nids itm2 x hx)]
    by_cases hitm : itm = item
    · subst hitm
      rw [if_pos rfl]
      simp only [Option.getD_some]
      rw [List.map_append, List.sum_append]
      rw [hsum_old itm]
      have hnew : (([L].map fun nid =>
          match (st.nodes ++ [a])[nid]? with | some n => n.freq | none => 0)).sum =
          1 / (N : Rat) := by
        simp [hget_new]
      rw [hnew]
      have hbase := sum_le itm
      rw [itemNodeFreqSum] at hbase
      rw [List.count_append]
      have hone : List.count itm [itm] = 1 := by simp
      rw [hone]
      push_cast
      calc ((((alookup st.item_nodes itm).getD []).map fun nid =>
            match st.nodes[nid]? with | some n => n.freq | none => 0)).sum + 1 / (N : Rat) ≤
          ((processed.flatten.count itm : Nat) : Rat) / (N : Rat) +
            ((udone.count itm : Nat) : Rat) / (N : Rat) + 1 / (N : Rat) := by linarith
        _ = ((processed.flatten.count itm : Nat) : Rat) / (N : Rat) +
            (((udone.count itm : Nat) : Rat) + 1) / (N : Rat) := by ring
    · rw [if_neg hitm]
      rw [hsum_old itm]
      have hbase := sum_le itm
      rw [itemNodeFreqSum] at hbase
      have hcnt : (udone ++ [item]).count itm = udone.count itm := by
        rw [List.count_append]
        have : List.count itm [item] = 0 := by
          rw [List.count_eq_zero]
          simp
          exact fun h => hitm h
        omega
      rw [hcnt]
      exact hbase

/-! ### The invariant holds initially and is preserved by each insertion -/

theorem goodMid_init (N : Nat) (metrics : List ItemRow) :
    GoodMid N metrics initState 0 [] [] := by
  refine ⟨rfl, ?_, ?_, ?_, ?_, ?_, rfl, ?_, ?_, ?_, ?_, ?_⟩
  · intro i n hi hne
    cases i with
    | zero => exact absurd rfl hne
    | succ j => cases j <;> cases hi
  · intro item nid
    constructor
    · intro h
      cases h
    · rintro ⟨n, hn, htag, hne⟩
      cases nid with
      | zero => exact absurd rfl hne
      | succ j => cases j <;> cases hn
  · intro item
    exact List.nodup_nil
  · intro i j hi hj hp
    have h1 : initState.nodes.length = 1 := rfl
    rw [h1] at hi hj
    omega
  · exact Nat.one_pos
  · intro i n hi hne
    cases i with
    | zero => exact absurd rfl hne
    | succ j => cases j <;> cases hi
  · intro t ht
    cases ht
  · intro j
    exact ⟨0, Nat.one_pos, by simp [pathTo_zero_eq]⟩
  · intro i hi
    have h1 : initState.nodes.length = 1 := rfl
    rw [h1] at hi
    have h2 : i = 0 := by omega
    subst h2
    rw [pathTo_zero_eq]
    exact List.Pairwise.nil
  · intro item
    show itemNodeFreqSum initState item ≤ _
    rw [itemNodeFreqSum]
    show ((([] : List Nat)).map _).sum ≤ _
    simp only [List.map_nil, List.sum_nil]
    positivity

theorem insertItemE_step (N : Nat) (metrics : List ItemRow) (st : FPState) (pn : Nat)
    (processed : List (List String)) (udone : List String) (item : String)
    (G : GoodMid N metrics st pn processed udone)
    (hmem : item ∈ metrics.map ItemRow.item)
    (hord : ∀ a ∈ udone, (metrics.map ItemRow.item).indexOf a ≤
      (metrics.map ItemRow.item).indexOf item) :
    ∃ st2 pn2, insertItemE N metrics (.ok (st, pn)) item = .ok (st2, pn2) ∧
      GoodMid N metrics st2 pn2 processed (udone ++ [item]) := by
  have hcreate : ∀ (hnochild : ¬ ∃ (c : Nat) (n : FNode),
      st.nodes[c]? = some n ∧ n.parent = some pn ∧ n.tag = item),
      ∃ st2 pn2, createNodeE N metrics st pn item = .ok (st2, pn2) ∧
        GoodMid N metrics st2 pn2 processed (udone ++ [item]) := by
    intro hnochild
    rcases createNodeE_ok N metrics st pn item hmem with ⟨row, _, _, _, hcr⟩
    exact ⟨_, _, hcr,
      goodMid_create N metrics st pn processed udone item row.weight G hord hnochild⟩
  cases hlk : alookup st.item_nodes item with
  | none =>
    have hnochild : ¬ ∃ (c : Nat) (n : FNode),
        st.nodes[c]? = some n ∧ n.parent = some pn ∧ n.tag = item := by
      rintro ⟨c, n, hc, hp, ht⟩
      have hc0 : c ≠ 0 := by
        intro h
        rw [h, G.root_node] at hc
        injection hc with h2
        rw [← h2] at hp
        cases hp
      have hmem2 : c ∈ (alookup st.item_nodes item).getD [] :=
        (G.inodes item c).mpr ⟨n, hc, ht, hc0⟩
      rw [hlk] at hmem2
      cases hmem2
    rcases hcreate hnochild with ⟨st2, pn2, hcr, hG2⟩
    refine ⟨st2, pn2, ?_, hG2⟩
    rw [show insertItemE N metrics (.ok (st, pn)) item = createNodeE N metrics st pn item by
      simp only [insertItemE, hlk]]
    exact hcr
  | some nids =>
    by_cases hany : ((childrenNids st.nodes pn).any fun nid => nid ∈ nids) = true
    · rcases List.any_eq_true.mp hany with ⟨c0, hc0_mem, hc0_in⟩
      have hc0nids : c0 ∈ nids := of_decide_eq_true hc0_in
      have hgetd : (alookup st.item_nodes item).getD [] = nids := by rw [hlk]; rfl
      have hnode : ∀ x, x ∈ nids → x ∈ childrenNids st.nodes pn →
          ∃ n, st.nodes[x]? = some n ∧ n.tag = item ∧ n.parent = some pn ∧ x ≠ 0 := by
        intro x hx hxc
        rcases (G.inodes item x).mp (by rw [hgetd]; exact hx) with ⟨n, hn, htag, hne⟩
        rcases (mem_childrenNids st.nodes pn x).mp hxc with ⟨n2, hn2, hp2⟩
        rw [hn] at hn2
        injection hn2 with hn3
        exact ⟨n, hn, htag, by rw [hn3]; exact hp2, hne⟩
      rcases hnode c0 hc0nids hc0_mem with ⟨cn, hcget, hctag, hcpar, hc0ne⟩
      have hpathc : pathTo st.nodes c0 = udone ++ [item] := by
        rw [pathTo_parent st.nodes G.root_node G.parent_lt c0 cn pn hcget hc0ne hcpar,
          G.pn_path, hctag]
      have hfilter : ∀ x, x ∈ (nids.filter fun nid =>
          decide (nid ∈ childrenNids st.nodes pn)) → x = c0 := by
        intro x hx
        rw [List.mem_filter] at hx
        rcases hnode x hx.1 (of_decide_eq_true hx.2) with ⟨n, hn, htag, hpar, hne⟩
        have hpx : pathTo st.nodes x = udone ++ [item] := by
          rw [pathTo_parent st.nodes G.root_node G.parent_lt x n pn hn hne hpar,
            G.pn_path, htag]
        exact G.path_inj x c0 (getElem?_lt _ _ _ hn) (getElem?_lt _ _ _ hcget)
          (by rw [hpx, hpathc])
      have hne_filter : (nids.filter fun nid =>
          decide (nid ∈ childrenNids st.nodes pn)) ≠ [] := by
        intro h
        have : c0 ∈ (nids.filter fun nid => decide (nid ∈ childrenNids st.nodes pn)) :=
          List.mem_filter.mpr ⟨hc0nids, decide_eq_true hc0_mem⟩
        rw [h] at this
        cases this
      have htarget : minNid (nids.filter fun nid =>
          decide (nid ∈ childrenNids st.nodes pn)) = c0 :=
        minNid_const _ c0 hne_filter hfilter
      refine ⟨{ st with nodes := updateFreq st.nodes c0 (1 / (N : Rat)) }, c0, ?_,
        goodMid_navigate N metrics st pn processed udone item c0 cn G hcget hcpar hctag⟩
      simp only [insertItemE, hlk, hany, eq_self_iff_true, if_true, htarget]
    · have hnochild : ¬ ∃ (c : Nat) (n : FNode),
          st.nodes[c]? = some n ∧ n.parent = some pn ∧ n.tag = item := by
        rintro ⟨c, n, hc, hp, ht⟩
        have hc0 : c ≠ 0 := by
          intro h
          rw [h, G.root_node] at hc
          injection hc with h2
          rw [← h2] at hp
          cases hp
        have hmem2 : c ∈ (alookup st.item_nodes item).getD [] :=
          (G.inodes item c).mpr ⟨n, hc, ht, hc0⟩
        rw [hlk] at hmem2
        have hcc : c ∈ childrenNids st.nodes pn :=
          (mem_childrenNids st.nodes pn c).mpr ⟨n, hc, hp⟩
        exact hany (List.any_eq_true.mpr ⟨c, hcc, decide_eq_true hmem2⟩)
      rcases hcreate hnochild with ⟨st2, pn2, hcr, hG2⟩
      refine ⟨st2, pn2, ?_, hG2⟩
      rw [show insertItemE N metrics (.ok (st, pn)) item = createNodeE N metrics st pn item by
        simp only [insertItemE, hlk, hany, Bool.false_eq_true, if_false]]
      exact hcr

theorem insertItem_fold_good (N : Nat) (metrics : List ItemRow)
    (processed : List (List String)) :
    ∀ (rest udone : List String) (st : FPState) (pn : Nat),
      GoodMid N metrics st pn processed udone →
      (∀ x ∈ rest, x ∈ metrics.map ItemRow.item) →
      ((udone ++ rest).Pairwise fun a b => (metrics.map ItemRow.item).indexOf a ≤
        (metrics.map ItemRow.item).indexOf b) →
      ∃ st2 pn2, rest.foldl (insertItemE N metrics) (.ok (st, pn)) = .ok (st2, pn2) ∧
        GoodMid N metrics st2 pn2 processed (udone ++ rest) := by
  intro rest
  induction rest with
  | nil =>
    intro udone st pn G _ _
    refine ⟨st, pn, rfl, ?_⟩
    rw [List.append_nil]
    exact G
  | cons x rest2 ih =>
    intro udone st pn G hmem hpair
    have hord : ∀ a ∈ udone, (metrics.map ItemRow.item).indexOf a ≤
        (metrics.map ItemRow.item).indexOf x := by
      intro a ha
      rcases List.pairwise_append.mp hpair with ⟨_, _, hcross⟩
      exact hcross a ha x (List.mem_cons_self x rest2)
    rcases insertItemE_step N metrics st pn processed udone x G
      (hmem x (List.mem_cons_self x rest2)) hord with ⟨st2, pn2, hstep, G2⟩
    have heq : (udone ++ [x]) ++ rest2 = udone ++ x :: rest2 := by simp
    rcases ih (udone ++ [x]) st2 pn2 G2
      (fun y hy => hmem y (List.mem_cons_of_mem x hy))
      (by rw [heq]; exact hpair) with ⟨st3, pn3, hfold, G3⟩
    refine ⟨st3, pn3, ?_, ?_⟩
    · rw [List.foldl_cons, hstep]
      exact hfold
    · rw [← heq]
      exact G3

theorem count_order_transaction_le (t : List String) (metrics : List ItemRow) (x : String) :
    (order_transaction t metrics).count x ≤ t.count x := by
  simp only [order_transaction]
  rw [(sortBy_perm _ _).count_eq]
  exact (List.filter_sublist t).count_le x

theorem goodMid_next_transaction (N : Nat) (metrics : List ItemRow)
    (processed : List (List String)) (t : List String) (st : FPState) (pn : Nat)
    (G : GoodMid N metrics st pn processed (order_transaction t metrics)) :
    GoodMid N metrics st 0 (processed ++ [t]) [] := by
  obtain ⟨root_node, parent_lt, inodes, nodup_nids, path_inj, pn_lt, pn_path, freq_eq,
    covered, covered_done, path_sorted, sum_le⟩ := G
  refine ⟨root_node, parent_lt, inodes, nodup_nids, path_inj,
    getElem?_lt _ _ _ root_node, pathTo_zero_eq _, ?_, ?_, ?_, path_sorted, ?_⟩
  · intro i n hi hne
    have hold := freq_eq i n hi hne
    have hnil : pathTo st.nodes i ≠ [] := pathTo_ne_nil st.nodes root_node parent_lt i n hi hne
    have hite0 : (if pathTo st.nodes i ≠ [] ∧ pathTo st.nodes i <+: ([] : List String)
        then (1 : Rat) / (N : Rat) else 0) = 0 :=
      if_neg (fun hc => hnil (List.prefix_nil.mp hc.2))
    rw [hite0, add_zero, List.countP_append]
    by_cases hpre : (pathTo st.nodes i).isPrefixOf (order_transaction t metrics) = true
    · have hone : List.countP
          (fun t2 => (pathTo st.nodes i).isPrefixOf (order_transaction t2 metrics)) [t] = 1 := by
        simp [List.countP_cons, hpre]
      rw [hone, hold, if_pos ⟨hnil, List.isPrefixOf_iff_prefix.mp hpre⟩]
      push_cast
      ring
    · have hzero2 : List.countP
          (fun t2 => (pathTo st.nodes i).isPrefixOf (order_transaction t2 metrics)) [t] = 0 := by
        simp [List.countP_cons, hpre]
      rw [hzero2, hold, if_neg (fun hc => hpre (List.isPrefixOf_iff_prefix.mpr hc.2))]
      push_cast
      ring
  · intro t2 ht2 j
    rcases List.mem_append.mp ht2 with h | h
    · exact covered t2 h j
    · rw [List.mem_singleton] at h
      subst h
      exact covered_done j
  · intro j
    refine ⟨0, getElem?_lt _ _ _ root_node, ?_⟩
    rw [pathTo_zero_eq, List.take_nil]
  · intro item
    have hbase := sum_le item
    have hcnt : (order_transaction t metrics).count item ≤ t.count item :=
      count_order_transaction_le t metrics item
    have hmono : ((((order_transaction t metrics).count item : Nat)) : Rat) / (N : Rat) ≤
        ((t.count item : Nat) : Rat) / (N : Rat) := by
      have hab : (((order_transaction t metrics).count item : Nat) : Rat) ≤
          ((t.count item : Nat) : Rat) := by exact_mod_cast hcnt
      rcases Nat.eq_zero_or_pos N with hN | hN
      · subst hN
        simp
      · exact (div_le_div_iff_of_pos_right (by exact_mod_cast hN)).mpr hab
    have hflat : (processed ++ [t]).flatten.count item =
        processed.flatten.count item + t.count item := by
      rw [List.flatten_append, List.count_append]
      simp
    rw [hflat]
    have hzero : ((List.count item ([] : List String) : Nat) : Rat) / (N : Rat) = 0 := by
      simp
    rw [hzero]
    push_cast
    rw [add_div]
    linarith

theorem insertTransactionE_good (N : Nat) (metrics : List ItemRow)
    (processed : List (List String)) (st : FPState) (t : List String)
    (G : GoodMid N metrics st 0 processed []) :
    ∃ st2, insertTransactionE N metrics (.ok st) t = .ok st2 ∧
      GoodMid N metrics st2 0 (processed ++ [t]) [] := by
  have hsorted : (order_transaction t metrics).Pairwise
      (fun a b => (metrics.map ItemRow.item).indexOf a ≤
        (metrics.map ItemRow.item).indexOf b) := by
    have hp := pairwise_sortBy
      (fun a b : String => ((metrics.map ItemRow.item).indexOf a ≤
        (metrics.map ItemRow.item).indexOf b : Bool))
      (fun a b c hab hbc => decide_eq_true
        (Nat.le_trans (of_decide_eq_true hab) (of_decide_eq_true hbc)))
      (fun a b => by
        rcases Nat.le_total ((metrics.map ItemRow.item).indexOf a)
          ((metrics.map ItemRow.item).indexOf b) with h | h
        · exact Or.inl (decide_eq_true h)
        · exact Or.inr (decide_eq_true h))
      (t.filter fun x => x ∈ metrics.map ItemRow.item)
    have : order_transaction t metrics = sortBy
        (fun a b => ((metrics.map ItemRow.item).indexOf a ≤
          (metrics.map ItemRow.item).indexOf b : Bool))
        (t.filter fun x => x ∈ metrics.map ItemRow.item) := rfl
    rw [this]
    exact hp.imp (fun h => of_decide_eq_true h)
  rcases insertItem_fold_good N metrics processed (order_transaction t metrics) [] st 0 G
    (fun x hx => mem_order_transaction t metrics x hx)
    (by rw [List.nil_append]; exact hsorted) with ⟨st2, pn2, hfold, G2⟩
  rw [List.nil_append] at G2
  refine ⟨st2, ?_, goodMid_next_transaction N metrics processed t st2 pn2 G2⟩
  rw [insertTransactionE, hfold]

theorem insertTransaction_fold_good (N : Nat) (metrics : List ItemRow) :
    ∀ (l processed : List (List String)) (st : FPState),
      GoodMid N metrics st 0 processed [] →
      ∃ st2, l.foldl (insertTransactionE N metrics) (.ok st) = .ok st2 ∧
        GoodMid N metrics st2 0 (processed ++ l) [] := by
  intro l
  induction l with
  | nil =>
    intro processed st G
    refine ⟨st, rfl, ?_⟩
    rw [List.append_nil]
    exact G
  | cons t ts ih =>
    intro processed st G
    rcases insertTransactionE_good N metrics processed st t G with ⟨st1, hstep, G1⟩
    rcases ih (processed ++ [t]) st1 G1 with ⟨st2, hfold, G2⟩
    refine ⟨st2, ?_, ?_⟩
    · rw [List.foldl_cons, hstep]
      exact hfold
    · have heq : (processed ++ [t]) ++ ts = processed ++ t :: ts := by simp
      rw [← heq]
      exact G2

theorem construct_fptree_good (trans_db : List (List String)) (metrics : List ItemRow) :
    ∃ st, construct_fptree trans_db metrics = .ok st ∧
      GoodMid trans_db.length metrics st 0 trans_db [] := by
  rw [construct_fptree]
  rcases insertTransaction_fold_good trans_db.length metrics trans_db [] initState
    (goodMid_init _ _) with ⟨st2, hf, hG⟩
  rw [List.nil_append] at hG
  exact ⟨st2, hf, hG⟩

theorem fptreeAt_good (trans_db : List (List String)) (metrics : List ItemRow) (k j : Nat) :
    ∃ st pn udone processed, fptreeAt trans_db metrics k j = .ok (st, pn) ∧
      GoodMid trans_db.length metrics st pn processed udone := by
  rw [fptreeAt]
  rcases insertTransaction_fold_good trans_db.length metrics (trans_db.take k) [] initState
    (goodMid_init _ _) with ⟨st1, hf, hG⟩
  rw [List.nil_append] at hG
  rw [hf]
  cases hk : trans_db[k]? with
  | none => exact ⟨st1, 0, [], trans_db.take k, rfl, hG⟩
  | some t =>
    have hsub : ((order_transaction t metrics).take j).Sublist
        (order_transaction t metrics) := List.take_sublist j _
    have hsorted : (order_transaction t metrics).Pairwise
        (fun a b => (metrics.map ItemRow.item).indexOf a ≤
          (metrics.map ItemRow.item).indexOf b) := by
      have hp := pairwise_sortBy
        (fun a b : String => ((metrics.map ItemRow.item).indexOf a ≤
          (metrics.map ItemRow.item).indexOf b : Bool))
        (fun a b c hab hbc => decide_eq_true
          (Nat.le_trans (of_decide_eq_true hab) (of_decide_eq_true hbc)))
        (fun a b => by
          rcases Nat.le_total ((metrics.map ItemRow.item).indexOf a)
            ((metrics.map ItemRow.item).indexOf b) with h | h
          · exact Or.inl (decide_eq_true h)
          · exact Or.inr (decide_eq_true h))
        (t.filter fun x => x ∈ metrics.map ItemRow.item)
      have heq : order_transaction t metrics = sortBy
          (fun a b => ((metrics.map ItemRow.item).indexOf a ≤
            (metrics.map ItemRow.item).indexOf b : Bool))
          (t.filter fun x => x ∈ metrics.map ItemRow.item) := rfl
      rw [heq]
      exact hp.imp (fun h => of_decide_eq_true h)
    rcases insertItem_fold_good trans_db.length metrics (trans_db.take k)
      ((order_transaction t metrics).take j) [] st1 0 hG
      (fun x hx => mem_order_transaction t metrics x (hsub.mem hx))
      (by rw [List.nil_append]; exact hsorted.sublist hsub) with ⟨st2, pn2, hfold, G2⟩
    exact ⟨st2, pn2, _, trans_db.take k, hfold, G2⟩

theorem divN_mono (a b N : Nat) (h : a ≤ b) :
    ((a : Nat) : Rat) / (N : Rat) ≤ ((b : Nat) : Rat) / (N : Rat) := by
  have hab : ((a : Nat) : Rat) ≤ ((b : Nat) : Rat) := by exact_mod_cast h
  rcases Nat.eq_zero_or_pos N with hN | hN
  · subst hN
    simp
  · exact (div_le_div_iff_of_pos_right (by exact_mod_cast hN)).mpr hab

theorem divN_nonneg (a N : Nat) : (0 : Rat) ≤ ((a : Nat) : Rat) / (N : Rat) := by
  positivity

theorem goodMid_freq_nonneg (N : Nat) (metrics : List ItemRow) (st : FPState) (pn : Nat)
    (processed : List (List String)) (udone : List String)
    (G : GoodMid N metrics st pn processed udone) :
    ∀ i n, st.nodes[i]? = some n → i ≠ 0 → 0 ≤ n.freq := by
  intro i n hi hne
  rw [G.freq_eq i n hi hne]
  apply add_nonneg (divN_nonneg _ _)
  by_cases hcond : pathTo st.nodes i ≠ [] ∧ pathTo st.nodes i <+: udone
  · rw [if_pos hcond]
    positivity
  · rw [if_neg hcond]

theorem goodMid_child_freq_le (N : Nat) (metrics : List ItemRow) (st : FPState) (pn : Nat)
    (processed : List (List String)) (udone : List String)
    (G : GoodMid N metrics st pn processed udone)
    (i c : Nat) (np nc : FNode)
    (hi : st.nodes[i]? = some np) (hc : st.nodes[c]? = some nc)
    (hpar : nc.parent = some i) (hne : i ≠ 0) : nc.freq ≤ np.freq := by
  have hcne : c ≠ 0 := by
    intro h
    subst h
    rw [G.root_node] at hc
    injection hc with h2
    rw [← h2] at hpar
    simp [rootNode] at hpar
  have hpath : pathTo st.nodes c = pathTo st.nodes i ++ [nc.tag] :=
    pathTo_parent st.nodes G.root_node G.parent_lt c nc i hc hcne hpar
  have hprfx : pathTo st.nodes i <+: pathTo st.nodes c := by
    rw [hpath]
    exact List.prefix_append _ _
  have hcount : (processed.countP fun t2 =>
        (pathTo st.nodes c).isPrefixOf (order_transaction t2 metrics)) ≤
      processed.countP fun t2 =>
        (pathTo st.nodes i).isPrefixOf (order_transaction t2 metrics) := by
    apply List.countP_mono_left
    intro t2 _ hp2
    exact List.isPrefixOf_iff_prefix.mpr
      (hprfx.trans (List.isPrefixOf_iff_prefix.mp hp2))
  have hinil : pathTo st.nodes i ≠ [] :=
    pathTo_ne_nil st.nodes G.root_node G.parent_lt i np hi hne
  rw [G.freq_eq i np hi hne, G.freq_eq c nc hc hcne]
  refine add_le_add (divN_mono _ _ _ hcount) ?_
  by_cases hcond : pathTo st.nodes c ≠ [] ∧ pathTo st.nodes c <+: udone
  · rw [if_pos hcond, if_pos ⟨hinil, hprfx.trans hcond.2⟩]
  · rw [if_neg hcond]
    by_cases hcond2 : pathTo st.nodes i ≠ [] ∧ pathTo st.nodes i <+: udone
    · rw [if_pos hcond2]
      positivity
    · rw [if_neg hcond2]

theorem sum_map_le_of_unique (f : α → Rat) (B : Rat) (hB : 0 ≤ B) :
    ∀ l : List α, (∀ x ∈ l, f x ≤ B) →
      (∀ x ∈ l, ∀ y ∈ l, f x ≠ 0 → f y ≠ 0 → x = y) → l.Nodup →
      (l.map f).sum ≤ B := by
  intro l
  induction l with
  | nil =>
    intro _ _ _
    simpa using hB
  | cons a l2 ih =>
    intro hle huniq hnodup
    rw [List.map_cons, List.sum_cons, List.nodup_cons] at *
    by_cases ha : f a = 0
    · rw [ha, zero_add]
      exact ih (fun x hx => hle x (List.mem_cons_of_mem a hx))
        (fun x hx y hy => huniq x (List.mem_cons_of_mem a hx) y (List.mem_cons_of_mem a hy))
        hnodup.2
    · have hz : ∀ x ∈ l2, f x = 0 := by
        intro x hx
        by_contra hfx
        have hax := huniq a (List.mem_cons_self a l2) x (List.mem_cons_of_mem a hx) ha hfx
        exact hnodup.1 (by rw [hax]; exact hx)
      have hsum : (l2.map f).sum = 0 := by
        apply List.sum_eq_zero
        intro y hy
        rcases List.mem_map.mp hy with ⟨x, hx, rfl⟩
        exact hz x hx
      rw [hsum, add_zero]
      exact hle a (List.mem_cons_self a l2)

theorem goodMid_tagged_sum_le (N : Nat) (metrics : List ItemRow) (st : FPState) (pn : Nat)
    (processed : List (List String)) (udone : List String)
    (G : GoodMid N metrics st pn processed udone)
    (i : Nat) (n : FNode) (tag : String)
    (hi : st.nodes[i]? = some n) (hne : i ≠ 0) :
    taggedChildFreqSum st i tag ≤ n.freq := by
  rw [taggedChildFreqSum]
  refine sum_map_le_of_unique _ _
    (goodMid_freq_nonneg N metrics st pn processed udone G i n hi hne) _ ?_ ?_ ?_
  · intro c hcmem
    rcases (mem_childrenNids st.nodes i c).mp hcmem with ⟨nc, hc, hpar⟩
    simp only [hc]
    by_cases htag : nc.tag = tag
    · rw [if_pos htag]
      exact goodMid_child_freq_le N metrics st pn processed udone G i c n nc hi hc hpar hne
    · rw [if_neg htag]
      exact goodMid_freq_nonneg N metrics st pn processed udone G i n hi hne
  · intro c1 hc1m c2 hc2m hf1 hf2
    rcases (mem_childrenNids st.nodes i c1).mp hc1m with ⟨nc1, hc1, hpar1⟩
    rcases (mem_childrenNids st.nodes i c2).mp hc2m with ⟨nc2, hc2, hpar2⟩
    simp only [hc1] at hf1
    simp only [hc2] at hf2
    have htag1 : nc1.tag = tag := by
      by_contra hcon
      rw [if_neg hcon] at hf1
      exact hf1 rfl
    have htag2 : nc2.tag = tag := by
      by_contra hcon
      rw [if_neg hcon] at hf2
      exact hf2 rfl
    have hcne1 : c1 ≠ 0 := by
      intro h
      subst h
      rw [G.root_node] at hc1
      injection hc1 with h2
      rw [← h2] at hpar1
      simp [rootNode] at hpar1
    have hcne2 : c2 ≠ 0 := by
      intro h
      subst h
      rw [G.root_node] at hc2
      injection hc2 with h2
      rw [← h2] at hpar2
      simp [rootNode] at hpar2
    have hpath1 : pathTo st.nodes c1 = pathTo st.nodes i ++ [nc1.tag] :=
      pathTo_parent st.nodes G.root_node G.parent_lt c1 nc1 i hc1 hcne1 hpar1
    have hpath2 : pathTo st.nodes c2 = pathTo st.nodes i ++ [nc2.tag] :=
      pathTo_parent st.nodes G.root_node G.parent_lt c2 nc2 i hc2 hcne2 hpar2
    apply G.path_inj c1 c2 (getElem?_lt _ _ _ hc1) (getElem?_lt _ _ _ hc2)
    rw [hpath1, hpath2, htag1, htag2]
  · exact List.Nodup.filter _ (List.nodup_range _)

/-! ### Claim C1 -/

/-- C1: for every non-empty transaction database and every metrics table,
after `construct_fptree` completes, the support (`freq`) stored at every
non-root tree node equals k/N, where N is the number of transactions and k is
the number of transactions whose canonically ordered form
(`order_transaction` under the metrics table's item order) begins with the
sequence of item tags on the path from the root to that node. -/
theorem C1_support_prefix_count (trans_db : List (List String)) (metrics : List ItemRow)
    (st : FPState) (_hne : trans_db ≠ [])
    (hconstr : construct_fptree trans_db metrics = .ok st) :
    ∀ i n, st.nodes[i]? = some n → i ≠ 0 →
      n.freq = ((trans_db.countP fun t2 =>
        (pathTo st.nodes i).isPrefixOf (order_transaction t2 metrics) : Nat) : Rat) /
        (trans_db.length : Rat) := by
  rcases construct_fptree_good trans_db metrics with ⟨st2, hok, G⟩
  rw [hconstr] at hok
  injection hok with h2
  subst h2
  intro i n hi hne2
  have h := G.freq_eq i n hi hne2
  have hnil : pathTo st.nodes i ≠ [] :=
    pathTo_ne_nil st.nodes G.root_node G.parent_lt i n hi hne2
  rw [h, if_neg (fun hc => hnil (List.prefix_nil.mp hc.2)), add_zero]

/-- Witness for C1: on the fixture tree, node 1 is the `D` node with support
4/5, and 4 of the 5 transactions have a canonically ordered form starting
with `["D"]`. -/
theorem C1_support_prefix_count_witness :
    fixtureDb ≠ [] ∧
    construct_fptree fixtureDb fixtureMetrics = Except.ok fixtureTree ∧
    fixtureTree.nodes[1]? =
      some { tag := "D", parent := some 0, freq := 4/5, weight := 7/10 } ∧
    ({ tag := "D", parent := some 0, freq := 4/5, weight := 7/10 } : FNode).freq =
      ((fixtureDb.countP fun t2 => (pathTo fixtureTree.nodes 1).isPrefixOf
        (order_transaction t2 fixtureMetrics) : Nat) : Rat) / (fixtureDb.length : Rat) :=
  ⟨by decide, by decide, by decide,
    C1_support_prefix_count fixtureDb fixtureMetrics fixtureTree (by decide) (by decide)
      1 { tag := "D", parent := some 0, freq := 4/5, weight := 7/10 } (by decide) (by decide)⟩

/-! ### Claim C9 -/

/-- C9: at every observation point during and after construction (after `k`
transactions and `j` items of the next one), for every non-root node and
every item tag, the node's support is at least the sum of the supports of its
children bearing that tag. -/
theorem C9_child_support_bound (trans_db : List (List String)) (metrics : List ItemRow)
    (k j : Nat) (st : FPState) (pn : Nat)
    (hobs : fptreeAt trans_db metrics k j = .ok (st, pn)) :
    ∀ i n tag, st.nodes[i]? = some n → i ≠ 0 →
      taggedChildFreqSum st i tag ≤ n.freq := by
  rcases fptreeAt_good trans_db metrics k j with ⟨st2, pn2, udone, processed, hok, G⟩
  rw [hobs] at hok
  injection hok with h2
  injection h2 with h3 h4
  subst h3
  intro i n tag hi hne
  exact goodMid_tagged_sum_le trans_db.length metrics st pn2 processed udone G i n tag hi hne

/-! ### Order lemmas for the sort keys -/

theorem charsLe_total : ∀ x y : List Char, charsLe x y = true ∨ charsLe y x = true := by
  intro x
  induction x with
  | nil => intro y; exact Or.inl rfl
  | cons a as ih =>
    intro y
    cases y with
    | nil => exact Or.inr rfl
    | cons b bs =>
      simp only [charsLe]
      rcases Nat.lt_trichotomy a.toNat b.toNat with h | h | h
      · rw [if_pos h]
        exact Or.inl rfl
      · simp only [h, lt_self_iff_false, if_false]
        exact ih bs
      · have hnab : ¬ a.toNat < b.toNat := by omega
        rw [if_neg hnab, if_pos h, if_pos h]
        exact Or.inr rfl

theorem charsLe_trans : ∀ x y z : List Char,
    charsLe x y = true → charsLe y z = true → charsLe x z = true := by
  intro x
  induction x with
  | nil => intro y z _ _; rfl
  | cons a as ih =>
    intro y z hxy hyz
    cases y with
    | nil => cases hxy
    | cons b bs =>
      cases z with
      | nil => cases hyz
      | cons c cs =>
        simp only [charsLe] at hxy hyz ⊢
        rcases Nat.lt_trichotomy a.toNat b.toNat with hab | hab | hab <;>
          rcases Nat.lt_trichotomy b.toNat c.toNat with hbc | hbc | hbc
        · rw [if_pos (by omega)]
        · rw [if_pos (by omega)]
        · rw [if_neg (by omega), if_pos hbc] at hyz
          cases hyz
        · rw [if_pos (by omega)]
        · rw [if_neg (by omega), if_neg (by omega)] at hxy hyz ⊢
          exact ih bs cs hxy hyz
        · rw [if_neg (by omega), if_pos hbc] at hyz
          cases hyz
        · rw [if_neg (by omega), if_pos hab] at hxy
          cases hxy
        · rw [if_neg (by omega), if_pos hab] at hxy
          cases hxy
        · rw [if_neg (by omega), if_pos hab] at hxy
          cases hxy

theorem strLe_total (a b : String) : strLe a b = true ∨ strLe b a = true :=
  charsLe_total a.data b.data

theorem strLe_trans (a b c : String) (h1 : strLe a b = true) (h2 : strLe b c = true) :
    strLe a c = true :=
  charsLe_trans a.data b.data c.data h1 h2

theorem rowLe_total (a b : ItemRow) : rowLe a b = true ∨ rowLe b a = true := by
  rw [rowLe, rowLe]
  rcases lt_trichotomy a.freq b.freq with h | h | h
  · right
    rw [if_pos h]
  · rw [if_neg (by rw [h]; exact lt_irrefl _), if_neg (by rw [h]; exact lt_irrefl _),
      if_neg (by rw [h]; exact lt_irrefl _), if_neg (by rw [h]; exact lt_irrefl _)]
    exact strLe_total a.item b.item
  · left
    rw [if_pos h]

theorem rowLe_iff (a b : ItemRow) : rowLe a b = true ↔
    b.freq < a.freq ∨ (a.freq = b.freq ∧ strLe a.item b.item = true) := by
  rw [rowLe]
  rcases lt_trichotomy a.freq b.freq with h | h | h
  · rw [if_neg (by exact fun hc => absurd (lt_trans h hc) (lt_irrefl _)), if_pos h]
    constructor
    · intro hc
      cases hc
    · rintro (hc | ⟨he, _⟩)
      · exact absurd (lt_trans h hc) (lt_irrefl _)
      · rw [he] at h
        exact absurd h (lt_irrefl _)
  · rw [if_neg (by rw [h]; exact lt_irrefl _), if_neg (by rw [h]; exact lt_irrefl _)]
    constructor
    · intro hs
      exact Or.inr ⟨h, hs⟩
    · rintro (hc | ⟨_, hs⟩)
      · rw [h] at hc
        exact absurd hc (lt_irrefl _)
      · exact hs
  · rw [if_pos h]
    constructor
    · intro _
      exact Or.inl h
    · intro _
      rfl

theorem rowLe_trans (a b c : ItemRow) (h1 : rowLe a b = true) (h2 : rowLe b c = true) :
    rowLe a c = true := by
  rw [rowLe_iff] at h1 h2 ⊢
  rcases h1 with h1 | ⟨he1, hs1⟩
  · rcases h2 with h2 | ⟨he2, _⟩
    · exact Or.inl (lt_trans h2 h1)
    · exact Or.inl (he2 ▸ h1)
  · rcases h2 with h2 | ⟨he2, hs2⟩
    · exact Or.inl (he1 ▸ h2)
    · exact Or.inr ⟨he1.trans he2, strLe_trans _ _ _ hs1 hs2⟩

theorem rowLe_freq_le (a b : ItemRow) (h : rowLe a b = true) : b.freq ≤ a.freq := by
  rcases (rowLe_iff a b).mp h with h2 | ⟨h2, _⟩
  · exact le_of_lt h2
  · exact le_of_eq h2.symm

/-! ### rlookup and Counter lemmas -/

theorem keys_any (c : List (String × Rat)) (a : String) :
    (c.any fun p => p.1 = a) = true ↔ a ∈ c.map Prod.fst := by
  rw [List.any_eq_true]
  constructor
  · rintro ⟨p, hp, he⟩
    exact List.mem_map.mpr ⟨p, hp, of_decide_eq_true he⟩
  · intro h
    rcases List.mem_map.mp h with ⟨p, hp, he⟩
    exact ⟨p, hp, decide_eq_true he⟩

theorem rlookup_nil (k : String) : rlookup [] k = 0 := rfl

theorem rlookup_cons (p : String × Rat) (d : List (String × Rat)) (k : String) :
    rlookup (p :: d) k = if p.1 = k then p.2 else rlookup d k := by
  rw [rlookup, rlookup, List.find?_cons]
  by_cases h : p.1 = k
  · simp [h]
  · simp [h]

theorem rlookup_eq_of_mem_nodup (d : List (String × Rat)) (kv : String × Rat)
    (hnd : (d.map Prod.fst).Nodup) (hm : kv ∈ d) : rlookup d kv.1 = kv.2 := by
  induction d with
  | nil => cases hm
  | cons p d2 ih =>
    rw [List.map_cons, List.nodup_cons] at hnd
    rw [rlookup_cons]
    rcases List.mem_cons.mp hm with he | hm2
    · rw [he, if_pos rfl]
    · by_cases hp : p.1 = kv.1
      · exact absurd (by rw [hp]; exact List.mem_map.mpr ⟨kv, hm2, rfl⟩) hnd.1
      · rw [if_neg hp]
        exact ih hnd.2 hm2

theorem rlookup_eq_zero_of_not_mem (d : List (String × Rat)) (k : String)
    (h : k ∉ d.map Prod.fst) : rlookup d k = 0 := by
  induction d with
  | nil => rfl
  | cons p d2 ih =>
    rw [List.map_cons, List.mem_cons] at h
    push_neg at h
    rw [rlookup_cons, if_neg (fun hc => h.1 hc.symm)]
    exact ih h.2

theorem rlookup_cases (d : List (String × Rat)) (k : String) :
    rlookup d k = 0 ∨ ∃ kv ∈ d, kv.1 = k ∧ rlookup d k = kv.2 := by
  cases hf : d.find? fun p => p.1 = k with
  | none =>
    left
    rw [rlookup, hf]
    rfl
  | some p =>
    right
    refine ⟨p, List.mem_of_find?_eq_some hf, ?_, by rw [rlookup, hf]; rfl⟩
    exact of_decide_eq_true
      (@List.find?_some (String × Rat) (fun q => decide (q.1 = k)) p d hf)

theorem rlookup_map_ne (c : List (String × Rat)) (k : String) (w : Rat) (a : String)
    (hne : a ≠ k) :
    rlookup (c.map fun p => if p.1 = k then (p.1, p.2 + w) else p) a = rlookup c a := by
  induction c with
  | nil => rfl
  | cons p c2 ih =>
    rw [List.map_cons, rlookup_cons, rlookup_cons]
    by_cases hpk : p.1 = k
    · rw [if_pos hpk]
      rw [show ((p.1, p.2 + w) : String × Rat).1 = p.1 from rfl]
      rw [if_neg (by rw [hpk]; exact fun hc => hne hc.symm), if_neg (by rw [hpk]; exact fun hc => hne hc.symm)]
      exact ih
    · rw [if_neg hpk]
      by_cases hpa : p.1 = a
      · rw [if_pos hpa, if_pos hpa]
      · rw [if_neg hpa, if_neg hpa]
        exact ih

theorem rlookup_map_eq (c : List (String × Rat)) (k : String) (w : Rat)
    (hk : (c.any fun p => p.1 = k) = true) :
    rlookup (c.map fun p => if p.1 = k then (p.1, p.2 + w) else p) k =
      rlookup c k + w := by
  induction c with
  | nil => cases hk
  | cons p c2 ih =>
    rw [List.map_cons, rlookup_cons, rlookup_cons]
    by_cases hpk : p.1 = k
    · rw [if_pos hpk]
      rw [show ((p.1, p.2 + w) : String × Rat).1 = p.1 from rfl]
      rw [if_pos hpk, if_pos hpk]
    · rw [if_neg hpk, if_neg hpk, if_neg hpk]
      rw [List.any_cons, Bool.or_eq_true] at hk
      have hk2 : (c2.any fun p => p.1 = k) = true := by
        rcases hk with h | h
        · exact absurd (of_decide_eq_true h) hpk
        · exact h
      exact ih hk2

theorem rlookup_snoc (c : List (String × Rat)) (kv : String × Rat) (a : String) :
    rlookup (c ++ [kv]) a =
      if (c.any fun p => p.1 = a) = true then rlookup c a
      else if kv.1 = a then kv.2 else 0 := by
  induction c with
  | nil =>
    rw [List.nil_append, rlookup_cons, rlookup_nil]
    simp
  | cons p c2 ih =>
    rw [List.cons_append, rlookup_cons, rlookup_cons, List.any_cons]
    by_cases hpa : p.1 = a
    · rw [if_pos hpa, if_pos (by rw [Bool.or_eq_true]; exact Or.inl (decide_eq_true hpa))]
      rw [if_pos hpa]
    · rw [if_neg hpa, ih]
      by_cases h2 : (c2.any fun p => p.1 = a) = true
      · rw [if_pos h2, if_pos (by rw [Bool.or_eq_true]; exact Or.inr h2)]
        rw [if_neg hpa]
      · have hor : ¬ ((decide (p.1 = a) || c2.any fun p => decide (p.1 = a)) = true) := by
          rw [Bool.or_eq_true]
          rintro (h | h)
          · exact hpa (of_decide_eq_true h)
          · exact h2 h
        rw [if_neg h2, if_neg hor]

theorem counterAdd_nil (c : List (String × Rat)) : counterAdd c [] = c := rfl

theorem counterAdd_cons (c : List (String × Rat)) (kv : String × Rat)
    (b : List (String × Rat)) :
    counterAdd c (kv :: b) = counterAdd
      (if c.any fun p => p.1 = kv.1 then
        c.map fun p => if p.1 = kv.1 then (p.1, p.2 + kv.2) else p
      else c ++ [kv]) b := rfl

theorem rlookup_counterStep (c : List (String × Rat)) (kv : String × Rat) (a : String) :
    rlookup (if c.any fun p => p.1 = kv.1 then
        c.map fun p => if p.1 = kv.1 then (p.1, p.2 + kv.2) else p
      else c ++ [kv]) a = rlookup c a + (if a = kv.1 then kv.2 else 0) := by
  by_cases hk : (c.any fun p => p.1 = kv.1) = true
  · rw [if_pos hk]
    by_cases ha : a = kv.1
    · rw [if_pos ha, ha]
      exact rlookup_map_eq c kv.1 kv.2 hk
    · rw [if_neg ha, add_zero]
      exact rlookup_map_ne c kv.1 kv.2 a ha
  · rw [if_neg hk, rlookup_snoc]
    by_cases ha : a = kv.1
    · have hk2 : ¬ ((c.any fun p => p.1 = a) = true) := by rw [ha]; exact hk
      rw [if_neg hk2, if_pos ha.symm, if_pos ha]
      rw [rlookup_eq_zero_of_not_mem c a (fun hm => hk2 ((keys_any c a).mpr hm)), zero_add]
    · rw [if_neg ha, add_zero]
      by_cases h2 : (c.any fun p => p.1 = a) = true
      · rw [if_pos h2]
      · rw [if_neg h2, if_neg (fun hc => ha hc.symm)]
        exact (rlookup_eq_zero_of_not_mem c a (fun hm => h2 ((keys_any c a).mpr hm))).symm

theorem mem_keys_counterStep (c : List (String × Rat)) (kv : String × Rat) (t : String) :
    t ∈ ((if c.any fun p => p.1 = kv.1 then
        c.map fun p => if p.1 = kv.1 then (p.1, p.2 + kv.2) else p
      else c ++ [kv]).map Prod.fst) ↔ t ∈ c.map Prod.fst ∨ t = kv.1 := by
  by_cases h : (c.any fun p => p.1 = kv.1) = true
  · rw [if_pos h]
    have hkeys : ((c.map fun p => if p.1 = kv.1 then (p.1, p.2 + kv.2) else p).map Prod.fst) =
        c.map Prod.fst := by
      rw [List.map_map]
      apply List.map_congr_left
      intro p _
      by_cases hpk : p.1 = kv.1 <;> simp [hpk]
    rw [hkeys]
    constructor
    · exact Or.inl
    · rintro (hb | rfl)
      · exact hb
      · exact (keys_any c kv.1).mp h
  · rw [if_neg h, List.map_append]
    simp

theorem nodup_keys_counterStep (c : List (String × Rat)) (kv : String × Rat)
    (hnd : (c.map Prod.fst).Nodup) :
    ((if c.any fun p => p.1 = kv.1 then
        c.map fun p => if p.1 = kv.1 then (p.1, p.2 + kv.2) else p
      else c ++ [kv]).map Prod.fst).Nodup := by
  by_cases h : (c.any fun p => p.1 = kv.1) = true
  · rw [if_pos h]
    have hkeys : ((c.map fun p => if p.1 = kv.1 then (p.1, p.2 + kv.2) else p).map Prod.fst) =
        c.map Prod.fst := by
      rw [List.map_map]
      apply List.map_congr_left
      intro p _
      by_cases hpk : p.1 = kv.1 <;> simp [hpk]
    rw [hkeys]
    exact hnd
  · rw [if_neg h, List.map_append]
    have hm : kv.1 ∉ c.map Prod.fst := fun hm => h ((keys_any c kv.1).mpr hm)
    simp [List.nodup_append, hnd, hm]

theorem rlookup_counterAdd (a : String) :
    ∀ (b c : List (String × Rat)), (b.map Prod.fst).Nodup →
      rlookup (counterAdd c b) a = rlookup c a + rlookup b a := by
  intro b
  induction b with
  | nil =>
    intro c _
    rw [counterAdd_nil, rlookup_nil, add_zero]
  | cons kv b2 ih =>
    intro c hnd
    rw [List.map_cons, List.nodup_cons] at hnd
    rw [counterAdd_cons, ih _ hnd.2, rlookup_counterStep, rlookup_cons]
    by_cases ha : a = kv.1
    · rw [if_pos ha, if_pos ha.symm]
      rw [rlookup_eq_zero_of_not_mem b2 a (by rw [ha]; exact hnd.1), add_zero]
    · rw [if_neg ha, if_neg (fun hc => ha hc.symm), add_zero]

theorem mem_keys_counterAdd (t : String) :
    ∀ (b c : List (String × Rat)),
      t ∈ (counterAdd c b).map Prod.fst ↔ t ∈ c.map Prod.fst ∨ t ∈ b.map Prod.fst := by
  intro b
  induction b with
  | nil =>
    intro c
    rw [counterAdd_nil]
    simp
  | cons kv b2 ih =>
    intro c
    rw [counterAdd_cons, ih, mem_keys_counterStep, List.map_cons, List.mem_cons]
    tauto

theorem nodup_keys_counterAdd :
    ∀ (b c : List (String × Rat)), (c.map Prod.fst).Nodup →
      ((counterAdd c b).map Prod.fst).Nodup := by
  intro b
  induction b with
  | nil =>
    intro c h
    rw [counterAdd_nil]
    exact h
  | cons kv b2 ih =>
    intro c h
    rw [counterAdd_cons]
    exact ih _ (nodup_keys_counterStep c kv h)

/-! ### Branch value and key facts -/

theorem values_dictSet (d : List (String × Rat)) (k : String) (v : Rat)
    (hd : ∀ kv ∈ d, kv.2 = v) : ∀ kv ∈ dictSet d k v, kv.2 = v := by
  intro kv hm
  rw [dictSet] at hm
  by_cases h : (d.any fun p => p.1 = k) = true
  · rw [if_pos h] at hm
    rcases List.mem_map.mp hm with ⟨p, hp, he⟩
    by_cases hpk : p.1 = k
    · rw [if_pos hpk] at he
      rw [← he]
    · rw [if_neg hpk] at he
      rw [← he]
      exact hd p hp
  · rw [if_neg h] at hm
    rcases List.mem_append.mp hm with h2 | h2
    · exact hd kv h2
    · rw [List.mem_singleton] at h2
      rw [h2]

theorem nodup_keys_dictSet (d : List (String × Rat)) (k : String) (v : Rat)
    (hnd : (d.map Prod.fst).Nodup) : ((dictSet d k v).map Prod.fst).Nodup := by
  rw [dictSet]
  by_cases h : (d.any fun p => p.1 = k) = true
  · rw [if_pos h]
    have hkeys : ((d.map fun p => if p.1 = k then (p.1, v) else p).map Prod.fst) =
        d.map Prod.fst := by
      rw [List.map_map]
      apply List.map_congr_left
      intro p _
      by_cases hpk : p.1 = k <;> simp [hpk]
    rw [hkeys]
    exact hnd
  · rw [if_neg h, List.map_append]
    have hm : k ∉ d.map Prod.fst := fun hm => h ((keys_any d k).mpr hm)
    simp [List.nodup_append, hnd, hm]

theorem climbBranch_values (nodes : List FNode) (ltag : String) (pf : Rat) :
    ∀ (fuel pnid : Nat) (branch : List (String × Rat)),
      (∀ kv ∈ branch, kv.2 = pf) →
      ∀ kv ∈ climbBranch nodes ltag pf fuel pnid branch, kv.2 = pf := by
  intro fuel
  induction fuel with
  | zero =>
    intro pnid branch hb
    exact hb
  | succ fuel ih =>
    intro pnid branch hb
    rw [climbBranch]
    cases hn : nodes[pnid]? with
    | none => exact hb
    | some pn =>
      simp only [hn]
      cases hp : pn.parent with
      | none => exact hb
      | some gp =>
        simp only [hp]
        by_cases hpref : ltag.take 2 = pn.tag.take 2
        · rw [if_neg (fun hc => hc hpref)]
          exact ih gp branch hb
        · rw [if_pos hpref]
          exact ih gp (dictSet branch pn.tag pf) (values_dictSet branch pn.tag pf hb)

theorem nodup_keys_climbBranch (nodes : List FNode) (ltag : String) (pf : Rat) :
    ∀ (fuel pnid : Nat) (branch : List (String × Rat)),
      (branch.map Prod.fst).Nodup →
      ((climbBranch nodes ltag pf fuel pnid branch).map Prod.fst).Nodup := by
  intro fuel
  induction fuel with
  | zero =>
    intro pnid branch hb
    exact hb
  | succ fuel ih =>
    intro pnid branch hb
    rw [climbBranch]
    cases hn : nodes[pnid]? with
    | none => exact hb
    | some pn =>
      simp only [hn]
      cases hp : pn.parent with
      | none => exact hb
      | some gp =>
        simp only [hp]
        by_cases hpref : ltag.take 2 = pn.tag.take 2
        · rw [if_neg (fun hc => hc hpref)]
          exact ih gp branch hb
        · rw [if_pos hpref]
          exact ih gp (dictSet branch pn.tag pf) (nodup_keys_dictSet branch pn.tag pf hb)

theorem get_branch_values (st : FPState) (nid : Nat) (leaf : FNode)
    (hleaf : st.nodes[nid]? = some leaf) :
    ∀ kv ∈ get_branch st nid, kv.2 = leaf.freq := by
  rw [get_branch]
  simp only [hleaf]
  cases hp : leaf.parent with
  | none =>
    simp only [hp]
    intro kv hm
    cases hm
  | some pnid =>
    simp only [hp]
    exact climbBranch_values st.nodes leaf.tag leaf.freq st.nodes.length pnid []
      (fun kv hm => absurd hm (List.not_mem_nil kv))

theorem nodup_keys_get_branch (st : FPState) (nid : Nat) :
    ((get_branch st nid).map Prod.fst).Nodup := by
  rw [get_branch]
  cases hn : st.nodes[nid]? with
  | none => exact List.nodup_nil
  | some leaf =>
    simp only [hn]
    cases hp : leaf.parent with
    | none =>
      simp only [hp]
      exact List.nodup_nil
    | some pnid =>
      simp only [hp]
      exact nodup_keys_climbBranch st.nodes leaf.tag leaf.freq st.nodes.length pnid []
        List.nodup_nil

theorem rlookup_get_branch_bounds (st : FPState) (nid : Nat) (leaf : FNode)
    (hleaf : st.nodes[nid]? = some leaf) (hfr : 0 ≤ leaf.freq) (a : String) :
    0 ≤ rlookup (get_branch st nid) a ∧ rlookup (get_branch st nid) a ≤ leaf.freq := by
  rcases rlookup_cases (get_branch st nid) a with h | ⟨kv, hm, _, hv⟩
  · rw [h]
    exact ⟨le_refl 0, hfr⟩
  · rw [hv, get_branch_values st nid leaf hleaf kv hm]
    exact ⟨hfr, le_refl _⟩

/-- Every node recorded by the ancestor walk is a real non-root node of the
arena whose tag lies on the path to the walk's starting point. -/
theorem ancNodes_spec (nodes : List FNode)
    (hroot : nodes[0]? = some rootNode)
    (hlt : ∀ i n, nodes[i]? = some n → i ≠ 0 → ∃ p, n.parent = some p ∧ p < i) :
    ∀ (fuel pnid : Nat), ∀ n ∈ ancNodes nodes fuel pnid,
      (∃ q, nodes[q]? = some n ∧ q ≠ 0) ∧ n.tag ∈ pathTo nodes pnid := by
  intro fuel
  induction fuel with
  | zero =>
    intro pnid n hn
    cases hn
  | succ fuel ih =>
    intro pnid n hn
    rw [ancNodes] at hn
    cases hq : nodes[pnid]? with
    | none =>
      rw [hq] at hn
      cases hn
    | some pn =>
      simp only [hq] at hn
      cases hp : pn.parent with
      | none =>
        simp only [hp] at hn
        cases hn
      | some gp =>
        simp only [hp] at hn
        have hpne : pnid ≠ 0 := by
          intro h0
          subst h0
          rw [hroot] at hq
          injection hq with h2
          rw [← h2] at hp
          cases hp
        have hpath : pathTo nodes pnid = pathTo nodes gp ++ [pn.tag] :=
          pathTo_parent nodes hroot hlt pnid pn gp hq hpne hp
        rcases List.mem_cons.mp hn with he | hn2
        · subst he
          exact ⟨⟨pnid, hq, hpne⟩, by rw [hpath]; exact List.mem_append_right _ (List.mem_singleton.mpr rfl)⟩
        · rcases ih gp n hn2 with ⟨hq2, hm2⟩
          exact ⟨hq2, by rw [hpath]; exact List.mem_append_left _ hm2⟩

/-! ### The conditional pattern base: entry values and keys -/

theorem rlookup_cond_fold (st : FPState) (a : String) :
    ∀ (nids : List Nat) (c0 : List (String × Rat)),
      rlookup (nids.foldl (fun cond nid => counterAdd cond (get_branch st nid)) c0) a =
        rlookup c0 a + ((nids.map fun nid => rlookup (get_branch st nid) a).sum) := by
  intro nids
  induction nids with
  | nil =>
    intro c0
    rw [List.foldl_nil, List.map_nil, List.sum_nil, add_zero]
  | cons x xs ih =>
    intro c0
    rw [List.foldl_cons, ih, rlookup_counterAdd a (get_branch st x) c0
      (nodup_keys_get_branch st x), List.map_cons, List.sum_cons]
    ring

theorem nodup_keys_cond_fold (st : FPState) :
    ∀ (nids : List Nat) (c0 : List (String × Rat)), (c0.map Prod.fst).Nodup →
      ((nids.foldl (fun cond nid => counterAdd cond (get_branch st nid)) c0).map
        Prod.fst).Nodup := by
  intro nids
  induction nids with
  | nil =>
    intro c0 h
    exact h
  | cons x xs ih =>
    intro c0 h
    rw [List.foldl_cons]
    exact ih _ (nodup_keys_counterAdd _ _ h)

theorem mem_keys_cond_fold (st : FPState) (t : String) :
    ∀ (nids : List Nat) (c0 : List (String × Rat)),
      t ∈ (nids.foldl (fun cond nid => counterAdd cond (get_branch st nid)) c0).map
          Prod.fst ↔
        t ∈ c0.map Prod.fst ∨ ∃ nid ∈ nids, t ∈ (get_branch st nid).map Prod.fst := by
  intro nids
  induction nids with
  | nil =>
    intro c0
    simp
  | cons x xs ih =>
    intro c0
    rw [List.foldl_cons, ih, mem_keys_counterAdd]
    constructor
    · rintro ((h | h) | ⟨nid, hm, h⟩)
      · exact Or.inl h
      · exact Or.inr ⟨x, List.mem_cons_self x xs, h⟩
      · exact Or.inr ⟨nid, List.mem_cons_of_mem x hm, h⟩
    · rintro (h | ⟨nid, hm, h⟩)
      · exact Or.inl (Or.inl h)
      · rcases List.mem_cons.mp hm with he | hm2
        · exact Or.inl (Or.inr (he ▸ h))
        · exact Or.inr ⟨nid, hm2, h⟩

theorem cond_tree_entry_spec (st : FPState) (item a : String) (s : Rat)
    (h : (a, s) ∈ get_condition_tree item st) :
    s = (((alookup st.item_nodes item).getD []).map
      fun nid => rlookup (get_branch st nid) a).sum := by
  have hnd : ((get_condition_tree item st).map Prod.fst).Nodup := by
    rw [get_condition_tree]
    exact nodup_keys_cond_fold st _ [] List.nodup_nil
  have he : rlookup (get_condition_tree item st) a = s :=
    rlookup_eq_of_mem_nodup _ (a, s) hnd h
  rw [← he, get_condition_tree, rlookup_cond_fold, rlookup_nil, zero_add]

theorem cond_tree_entry_bounds (N : Nat) (metrics : List ItemRow) (st : FPState) (pn : Nat)
    (processed : List (List String)) (udone : List String)
    (G : GoodMid N metrics st pn processed udone)
    (item a : String) (s : Rat) (h : (a, s) ∈ get_condition_tree item st) :
    0 ≤ s ∧ s ≤ itemNodeFreqSum st item := by
  rw [cond_tree_entry_spec st item a s h, itemNodeFreqSum]
  constructor
  · apply List.sum_nonneg
    intro x hx
    rcases List.mem_map.mp hx with ⟨nid, hmem, he⟩
    rcases (G.inodes item nid).mp hmem with ⟨n, hn, _, hne⟩
    rw [← he]
    exact (rlookup_get_branch_bounds st nid n hn
      (goodMid_freq_nonneg N metrics st pn processed udone G nid n hn hne) a).1
  · apply List.sum_le_sum
    intro nid hmem
    rcases (G.inodes item nid).mp hmem with ⟨n, hn, _, hne⟩
    have hb := (rlookup_get_branch_bounds st nid n hn
      (goodMid_freq_nonneg N metrics st pn processed udone G nid n hn hne) a).2
    simp only [hn]
    exact hb

theorem cond_tree_key_order (N : Nat) (metrics : List ItemRow) (st : FPState) (pn : Nat)
    (processed : List (List String)) (udone : List String)
    (G : GoodMid N metrics st pn processed udone)
    (item a : String) (s : Rat) (h : (a, s) ∈ get_condition_tree item st) :
    (∃ q nq, st.nodes[q]? = some nq ∧ q ≠ 0 ∧ nq.tag = a) ∧ a ≠ item ∧
      (metrics.map ItemRow.item).indexOf a ≤ (metrics.map ItemRow.item).indexOf item := by
  have hk : a ∈ (get_condition_tree item st).map Prod.fst :=
    List.mem_map.mpr ⟨(a, s), h, rfl⟩
  rw [get_condition_tree] at hk
  rcases (mem_keys_cond_fold st a _ []).mp hk with h0 | ⟨nid, hnidm, hbk⟩
  · cases h0
  · rcases (G.inodes item nid).mp hnidm with ⟨leaf, hleaf, htag, hne⟩
    rcases G.parent_lt nid leaf hleaf hne with ⟨pnid, hp, _⟩
    have hbk2 : a ∈ (climbBranch st.nodes leaf.tag leaf.freq st.nodes.length pnid
        []).map Prod.fst := by
      rw [get_branch] at hbk
      simp only [hleaf] at hbk
      simp only [hp] at hbk
      exact hbk
    rcases (climbBranch_keys st.nodes leaf.tag leaf.freq st.nodes.length pnid [] a).mp
      hbk2 with h0 | ⟨n, hnm, hnt, hpref⟩
    · cases h0
    · rcases ancNodes_spec st.nodes G.root_node G.parent_lt st.nodes.length pnid n hnm
        with ⟨⟨q, hq, hq0⟩, hpm⟩
      have hne2 : a ≠ item := by
        intro he
        apply hpref
        rw [htag, hnt, he]
      have hpath : pathTo st.nodes nid = pathTo st.nodes pnid ++ [leaf.tag] :=
        pathTo_parent st.nodes G.root_node G.parent_lt nid leaf pnid hleaf hne hp
      have hsorted := G.path_sorted nid (getElem?_lt _ _ _ hleaf)
      rw [hpath] at hsorted
      rcases List.pairwise_append.mp hsorted with ⟨_, _, hcross⟩
      have hidx := hcross a (hnt ▸ hpm) leaf.tag (List.mem_singleton.mpr rfl)
      rw [htag] at hidx
      exact ⟨⟨q, n, hq, hq0, hnt⟩, hne2, hidx⟩

/-! ### The filtered metrics table: membership, uniqueness, sortedness -/

theorem mem_ffw (m0 : List ItemRow) (minF minW : Rat) (r : ItemRow)
    (h : r ∈ filter_frequency_and_weight m0 minF minW) : r ∈ m0 := by
  simp only [filter_frequency_and_weight] at h
  have h2 := (mem_sortBy _ _ _).mp h
  split at h2 <;>
    (have h4 := (List.mem_filter.mp h2).1
     split at h4 <;> exact (List.mem_filter.mp h4).1)

theorem nodup_items_ffw (m0 : List ItemRow) (minF minW : Rat)
    (hnd : (m0.map ItemRow.item).Nodup) :
    ((filter_frequency_and_weight m0 minF minW).map ItemRow.item).Nodup := by
  simp only [filter_frequency_and_weight]
  refine (List.Perm.nodup_iff ((sortBy_perm rowLe _).map ItemRow.item)).mpr ?_
  have hsub : (if minW < 0 then
        (if minF < 0 then m0.filter fun r => r.freq ≤ -minF
         else m0.filter fun r => minF ≤ r.freq).filter fun r => r.weight ≤ -minW
      else
        (if minF < 0 then m0.filter fun r => r.freq ≤ -minF
         else m0.filter fun r => minF ≤ r.freq).filter fun r =>
          minW ≤ r.weight).Sublist m0 := by
    split <;> split <;> exact (List.filter_sublist _).trans (List.filter_sublist _)
  exact List.Nodup.sublist (hsub.map ItemRow.item) hnd

theorem findRow_spec (l : List ItemRow) (a : String) (h : a ∈ l.map ItemRow.item) :
    ∃ k, ∃ hk : k < l.length, findRow l a = l.get ⟨k, hk⟩ ∧
      (l.map ItemRow.item).indexOf a = k := by
  induction l with
  | nil => cases h
  | cons r l2 ih =>
    by_cases hr : r.item = a
    · refine ⟨0, Nat.succ_pos _, ?_, ?_⟩
      · have hf : (r :: l2).find? (fun r2 => r2.item = a) = some r :=
          List.find?_cons_of_pos l2 (decide_eq_true hr)
        rw [findRow, hf]
        rfl
      · rw [List.map_cons, hr, List.indexOf_cons_self]
    · have h2 : a ∈ l2.map ItemRow.item := by
        rw [List.map_cons, List.mem_cons] at h
        rcases h with he | h2
        · exact absurd he.symm hr
        · exact h2
      rcases ih h2 with ⟨k, hk, hfr, hidx⟩
      refine ⟨k + 1, Nat.succ_lt_succ hk, ?_, ?_⟩
      · have hf : (r :: l2).find? (fun r2 => r2.item = a) = l2.find? (fun r2 => r2.item = a) :=
          List.find?_cons_of_neg l2 (fun hc => hr (of_decide_eq_true hc))
        rw [findRow, hf]
        rw [findRow] at hfr
        exact hfr
      · rw [List.map_cons, List.indexOf_cons_ne _ (fun hc => hr hc), hidx]

theorem findRow_mem (l : List ItemRow) (a : String) (h : a ∈ l.map ItemRow.item) :
    findRow l a ∈ l ∧ (findRow l a).item = a := by
  rcases List.mem_map.mp h with ⟨r, hr, he⟩
  cases hf : l.find? fun r2 => r2.item = a with
  | none =>
    rw [List.find?_eq_none] at hf
    exact absurd (decide_eq_true he) (hf r hr)
  | some r2 =>
    rw [findRow, hf]
    exact ⟨List.mem_of_find?_eq_some hf,
      of_decide_eq_true (@List.find?_some ItemRow (fun r2 => decide (r2.item = a)) r2 l hf)⟩

theorem sorted_findRow_freq_le (l : List ItemRow)
    (hpw : l.Pairwise fun x y => rowLe x y = true)
    (a b : String) (ha : a ∈ l.map ItemRow.item) (hb : b ∈ l.map ItemRow.item)
    (hne : a ≠ b)
    (hidx : (l.map ItemRow.item).indexOf a ≤ (l.map ItemRow.item).indexOf b) :
    (findRow l b).freq ≤ (findRow l a).freq := by
  rcases findRow_spec l a ha with ⟨i, hi, hfa, hia⟩
  rcases findRow_spec l b hb with ⟨j, hj, hfb, hib⟩
  have hij : i < j := by
    rcases Nat.lt_or_ge i j with hlt | hge
    · exact hlt
    · exfalso
      apply hne
      have hij2 : (l.map ItemRow.item).indexOf a = (l.map ItemRow.item).indexOf b := by
        omega
      have h1 : (l.map ItemRow.item).indexOf a < (l.map ItemRow.item).length := by
        rw [hia, List.length_map]
        exact hi
      have h2 : (l.map ItemRow.item).indexOf b < (l.map ItemRow.item).length := by
        rw [hib, List.length_map]
        exact hj
      have ha2 := List.getElem_indexOf h1
      have hb2 := List.getElem_indexOf h2
      have hmid : (l.map ItemRow.item)[(l.map ItemRow.item).indexOf a] =
          (l.map ItemRow.item)[(l.map ItemRow.item).indexOf b] := by
        simp only [hij2]
      exact ha2.symm.trans (hmid.trans hb2)
  have hr := List.pairwise_iff_getElem.mp hpw i j hi hj hij
  have hle := rowLe_freq_le _ _ hr
  rw [hfa, hfb]
  exact hle

/-- Witness for C9: on the fixture, mid-construction after 3 transactions and
1 item of the fourth, the non-root node 1 (`D`, support 3/5) bounds the sum of
the supports of its `A`-tagged children (a single child of support 1/5). -/
theorem C9_child_support_bound_witness :
    fptreeAt fixtureDb fixtureMetrics 3 1 = .ok (fixtureMid.1, fixtureMid.2) ∧
    fixtureMid.1.nodes[1]? =
      some { tag := "D", parent := some 0, freq := 3/5, weight := 7/10 } ∧
    taggedChildFreqSum fixtureMid.1 1 "A" ≤
      ({ tag := "D", parent := some 0, freq := 3/5, weight := 7/10 } : FNode).freq :=
  ⟨by decide, by decide,
    C9_child_support_bound fixtureDb fixtureMetrics 3 1 fixtureMid.1 fixtureMid.2
      (by decide) 1 { tag := "D", parent := some 0, freq := 3/5, weight := 7/10 } "A"
      (by decide) (by decide)⟩

/-! ### Claim C4 -/

/-- C4: in exact rational arithmetic, every rule produced by
`get_rules_metrics` on the pipeline's tree (metrics from `get_items_metrics`
filtered by `filter_frequency_and_weight`, tree from `construct_fptree`) has
confidence in [0, 1] and lift at least 0: the aggregate co-occurring support
of the conditional pattern base never exceeds the body item's frequency (nor
the head item's), and only items with positive frequency enter the tree, so
no division by zero occurs (the rule's cover, the body frequency used as a
divisor, is strictly positive). -/
theorem C4_rule_metrics_bounds (trans_db : List (List String))
    (W : List (String × Rat)) (L : List (String × String))
    (m0 metrics : List ItemRow) (minF minW : Rat) (st : FPState)
    (hm0 : get_items_metrics trans_db W L = .ok m0)
    (hmf : metrics = filter_frequency_and_weight m0 minF minW)
    (hconstr : construct_fptree trans_db metrics = .ok st) :
    ∀ r ∈ get_rules_metrics st metrics,
      0 ≤ r.conf ∧ r.conf ≤ 1 ∧ 0 ≤ r.lift ∧ 0 < r.cover := by
  rcases get_items_metrics_spec trans_db W L m0 hm0 with ⟨hnd0, hrows, hiff⟩
  rcases construct_fptree_good trans_db metrics with ⟨st2, hok, G⟩
  rw [hconstr] at hok
  injection hok with h2
  subst h2
  have hndm : (metrics.map ItemRow.item).Nodup := by
    rw [hmf]
    exact nodup_items_ffw m0 minF minW hnd0
  have hpw : metrics.Pairwise (fun x y => rowLe x y = true) := by
    rw [hmf]
    simp only [filter_frequency_and_weight]
    exact pairwise_sortBy rowLe rowLe_trans rowLe_total _
  have hrow : ∀ x ∈ metrics.map ItemRow.item,
      (findRow metrics x).freq =
        ((trans_db.flatten.count x : Nat) : Rat) / (trans_db.length : Rat) ∧
      0 < (findRow metrics x).freq := by
    intro x hx
    rcases findRow_mem metrics x hx with ⟨hmem, hitem⟩
    have hm0mem : findRow metrics x ∈ m0 :=
      mem_ffw m0 minF minW _ (by rw [← hmf]; exact hmem)
    rcases hrows _ hm0mem with ⟨hfeq, _, _⟩
    rw [hitem] at hfeq
    have hxfl : x ∈ trans_db.flatten :=
      (hiff x).mp (List.mem_map.mpr ⟨findRow metrics x, hm0mem, hitem⟩)
    have hcnt : 0 < trans_db.flatten.count x := List.count_pos_iff.mpr hxfl
    have hlen : 0 < trans_db.length := by
      rcases trans_db with _ | ⟨t, ts⟩
      · cases hxfl
      · simp
    refine ⟨hfeq, ?_⟩
    rw [hfeq]
    apply div_pos
    · exact_mod_cast hcnt
    · exact_mod_cast hlen
  intro r hr
  rw [get_rules_metrics_eq] at hr
  rcases List.mem_flatMap.mp hr with ⟨item, hitemd, hr2⟩
  rcases List.mem_flatMap.mp hr2 with ⟨pkv, hkv, hr3⟩
  have hitem_mem : item ∈ metrics.map ItemRow.item := List.drop_subset 1 _ hitemd
  obtain ⟨a, s⟩ := pkv
  rcases cond_tree_key_order trans_db.length metrics st 0 trans_db [] G item a s hkv
    with ⟨⟨q, nq, hq, hq0, hqt⟩, hane, hidx⟩
  have ha_mem : a ∈ metrics.map ItemRow.item := by
    rw [← hqt]
    exact construct_fptree_tags trans_db metrics st hconstr q nq hq hq0
  rcases cond_tree_entry_bounds trans_db.length metrics st 0 trans_db [] G item a s hkv
    with ⟨hs0, hsle⟩
  have hsum := G.sum_le item
  have hsum2 : itemNodeFreqSum st item ≤
      ((trans_db.flatten.count item : Nat) : Rat) / (trans_db.length : Rat) := by
    have h0 : ((List.count item ([] : List String) : Nat) : Rat) /
        (trans_db.length : Rat) = 0 := by simp
    calc itemNodeFreqSum st item ≤ _ := hsum
      _ = ((trans_db.flatten.count item : Nat) : Rat) / (trans_db.length : Rat) := by
          rw [h0, add_zero]
  have hs_item : s ≤ (findRow metrics item).freq := by
    rw [(hrow item hitem_mem).1]
    exact le_trans hsle hsum2
  have hs_a : s ≤ (findRow metrics a).freq :=
    le_trans hs_item (sorted_findRow_freq_le metrics hpw a item ha_mem hitem_mem hane hidx)
  have hpos_a := (hrow a ha_mem).2
  have hpos_i := (hrow item hitem_mem).2
  have hronef : ∀ brow hrow2 : ItemRow, 0 < brow.freq → 0 < hrow2.freq →
      0 ≤ s → s ≤ brow.freq →
      0 ≤ (get_rule s brow hrow2).conf ∧ (get_rule s brow hrow2).conf ≤ 1 ∧
      0 ≤ (get_rule s brow hrow2).lift ∧ 0 < (get_rule s brow hrow2).cover := by
    intro brow hrow2 hb hh h0 hsb
    refine ⟨?_, ?_, ?_, ?_⟩
    · show 0 ≤ s / brow.freq
      exact div_nonneg h0 (le_of_lt hb)
    · show s / brow.freq ≤ 1
      exact (div_le_one hb).mpr hsb
    · show 0 ≤ s / brow.freq / hrow2.freq
      exact div_nonneg (div_nonneg h0 (le_of_lt hb)) (le_of_lt hh)
    · show 0 < brow.freq
      exact hb
  rcases List.mem_cons.mp hr3 with he | hr4
  · rw [he]
    exact hronef _ _ hpos_a hpos_i hs0 hs_a
  · rw [List.mem_singleton] at hr4
    rw [hr4]
    exact hronef _ _ hpos_i hpos_a hs0 hs_item

/-- Witness for C4 on the fixture pipeline: the rule `D ⇒ A`
(confidence 1/2, lift 5/6, cover 4/5) satisfies all four bounds. -/
theorem C4_rule_metrics_bounds_witness :
    get_items_metrics fixtureDb fixtureWeights fixtureLabels = Except.ok
      [{ item := "A", freq := 3/5, weight := 1/2, label := "Alpha" },
       { item := "C", freq := 2/5, weight := 9/10, label := "Gamma" },
       { item := "B", freq := 3/5, weight := 3/10, label := "Beta" },
       { item := "D", freq := 4/5, weight := 7/10, label := "Delta" },
       { item := "E", freq := 2/5, weight := 1/10, label := "Episode" },
       { item := "Y", freq := 1/5, weight := 1, label := "Yahtzee" }] ∧
    fixtureMetrics = filter_frequency_and_weight
      [{ item := "A", freq := 3/5, weight := 1/2, label := "Alpha" },
       { item := "C", freq := 2/5, weight := 9/10, label := "Gamma" },
       { item := "B", freq := 3/5, weight := 3/10, label := "Beta" },
       { item := "D", freq := 4/5, weight := 7/10, label := "Delta" },
       { item := "E", freq := 2/5, weight := 1/10, label := "Episode" },
       { item := "Y", freq := 1/5, weight := 1, label := "Yahtzee" }] (1/4) (1/2) ∧
    construct_fptree fixtureDb fixtureMetrics = Except.ok fixtureTree ∧
    ({ body := "D", head := "A", conf := 1/2, lift := 5/6, cover := 4/5 } : Rule) ∈
      get_rules_metrics fixtureTree fixtureMetrics ∧
    (0 ≤ ({ body := "D", head := "A", conf := 1/2, lift := 5/6, cover := 4/5 } : Rule).conf ∧
     ({ body := "D", head := "A", conf := 1/2, lift := 5/6, cover := 4/5 } : Rule).conf ≤ 1 ∧
     0 ≤ ({ body := "D", head := "A", conf := 1/2, lift := 5/6, cover := 4/5 } : Rule).lift ∧
     0 < ({ body := "D", head := "A", conf := 1/2, lift := 5/6, cover := 4/5 } : Rule).cover) :=
  ⟨by decide, by decide, by decide, by decide,
    C4_rule_metrics_bounds fixtureDb fixtureWeights fixtureLabels
      [{ item := "A", freq := 3/5, weight := 1/2, label := "Alpha" },
       { item := "C", freq := 2/5, weight := 9/10, label := "Gamma" },
       { item := "B", freq := 3/5, weight := 3/10, label := "Beta" },
       { item := "D", freq := 4/5, weight := 7/10, label := "Delta" },
       { item := "E", freq := 2/5, weight := 1/10, label := "Episode" },
       { item := "Y", freq := 1/5, weight := 1, label := "Yahtzee" }]
      fixtureMetrics (1/4) (1/2) fixtureTree (by decide) (by decide) (by decide)
      { body := "D", head := "A", conf := 1/2, lift := 5/6, cover := 4/5 } (by decide)⟩

end GORi
